import Mathlib

/-!
Verification of the vectorized CFR engine (`src/cfr.rs`) of `game-theory-rs`.

The engine is embedded shallowly: `f64` vectors and matrices become `List ℚ`
and `List (List ℚ)` (rows indexed by action, columns by information set),
and the three recursive tree passes (`update_probabilities`, `update_ev`,
`update_strategy`) become recursive functions on an inductive tree type.
Rational arithmetic models the real-valued intent of the floating-point
code; the code's explicit zero-denominator guards (`safeDenom`) are kept.
-/

namespace CFR

abbrev Vec := List ℚ
abbrev Mat := List (List ℚ)

/-- Elementwise vector addition (ndarray `+` on two 1-d arrays). -/
def vAdd (a b : Vec) : Vec := List.zipWith (· + ·) a b

/-- Elementwise vector product (ndarray `*` on two 1-d arrays). -/
def vMul (a b : Vec) : Vec := List.zipWith (· * ·) a b

/-- Matrix addition, rowwise. -/
def mAdd (m n : Mat) : Mat := List.zipWith vAdd m n

/-- ndarray broadcast of a length-`I` vector across the rows of an `A×I`
matrix under `*`: every row is multiplied elementwise by `v`. -/
def rowMul (m : Mat) (v : Vec) : Mat := m.map (fun r => vMul r v)

/-- ndarray broadcast of a length-`I` vector across rows under `-`. -/
def rowSub (m : Mat) (v : Vec) : Mat :=
  m.map (fun r => List.zipWith (· - ·) r v)

/-- ndarray broadcast of a length-`I` vector across rows under `/`. -/
def rowDiv (m : Mat) (v : Vec) : Mat :=
  m.map (fun r => List.zipWith (· / ·) r v)

/-- Multiplication of a matrix by a scalar. -/
def mScale (c : ℚ) (m : Mat) : Mat := m.map (fun r => r.map (fun x => c * x))

/-- Column `j` of a row-major matrix. -/
def getCol (m : Mat) (j : ℕ) : Vec := m.map (fun r => r.getD j 0)

/-- Entry of a row-major matrix at row `a`, column `i` (0 outside). -/
def matGet (m : Mat) (a i : ℕ) : ℚ := (m.getD a []).getD i 0

/-- The all-zero `r × c` matrix (`Array::zeros`). -/
def zerosMat (r c : ℕ) : Mat := List.replicate r (List.replicate c 0)

/-- Overwrite column `j` of `m` with `col` (`slice_mut(s![.., j]).assign`). -/
def assignCol (m : Mat) (j : ℕ) (col : Vec) : Mat :=
  List.zipWith (fun r v => r.set j v) m col

/-- The denominator convention of `cfr.rs`: `match x { 0. => 1., _ => x }`. -/
def safeDenom (x : ℚ) : ℚ := if x = 0 then 1 else x

/-- Mutable state of a decision node (`ActionNode`), minus its children. -/
structure AData where
  name : String
  state_probabilities : Vec
  total_probabilities : Vec
  evs : Vec
  infosets : List (List ℕ)
  strategy : Mat
  avg_strategy : Mat
  regrets : Mat
  sign : ℤ
  iter_count : ℕ
deriving Repr, DecidableEq

/-- A CFR game-tree node: `ActionNode` (with its owned children) or
`TerminalNode` (name, state probabilities, fixed payouts). -/
inductive Node where
  | action (d : AData) (children : List Node)
  | terminal (name : String) (state_probabilities : Vec) (payouts : Vec)

/-- `Node::state_probabilities`. -/
def Node.state_probabilities : Node → Vec
  | .action d _ => d.state_probabilities
  | .terminal _ sp _ => sp

/-- `Node::payouts`: a decision node reports its `evs`, a terminal its
fixed payouts. -/
def Node.payouts : Node → Vec
  | .action d _ => d.evs
  | .terminal _ _ p => p

/-- `Node::set_state_probabilities`: overwrite the reach vector. -/
def Node.set_state_probabilities : Node → Vec → Node
  | .action d ch, p => .action { d with state_probabilities := p } ch
  | .terminal n _ pay, p => .terminal n p pay

/-- Children of a node (empty for terminals). -/
def Node.childrenOf : Node → List Node
  | .action _ ch => ch
  | .terminal _ _ _ => []

/-- `regrets` of a node (empty for terminals). -/
def Node.regretsOf : Node → Mat
  | .action d _ => d.regrets
  | .terminal _ _ _ => []

/-- `strategy` of a node (empty for terminals). -/
def Node.strategyOf : Node → Mat
  | .action d _ => d.strategy
  | .terminal _ _ _ => []

/-- `avg_strategy` of a node (empty for terminals). -/
def Node.avgStrategyOf : Node → Mat
  | .action d _ => d.avg_strategy
  | .terminal _ _ _ => []

/-- `total_probabilities` of a node (empty for terminals). -/
def Node.totalOf : Node → Vec
  | .action d _ => d.total_probabilities
  | .terminal _ _ _ => []

/-- `infosets` of a node (empty for terminals). -/
def Node.infosetsOf : Node → List (List ℕ)
  | .action d _ => d.infosets
  | .terminal _ _ _ => []

/-- `ActionNode::infoset_probabilities`: per-infoset sums of a per-state
probability vector. -/
def infoset_probabilities (infosets : List (List ℕ)) (sp : Vec) : Vec :=
  infosets.map (fun iset => (iset.map (fun i => sp.getD i 0)).sum)

/-- `ActionNode::infoset_evs`: per-infoset reach-weighted EV, divided by
the safe infoset reach. -/
def infoset_evs (infosets : List (List ℕ)) (evs sp : Vec) : Vec :=
  List.zipWith (· / ·)
    (infosets.map (fun iset =>
      (iset.map (fun s => evs.getD s 0 * sp.getD s 0)).sum))
    ((infoset_probabilities infosets sp).map safeDenom)

/-- `ActionNode::expand_strategy`: starting from `zeros (A × S)`, assign
column `s` to strategy column `i` for every state `s` of infoset `i`. -/
def expand_strategy (infosets : List (List ℕ)) (strategy : Mat)
    (nc ns : ℕ) : Mat :=
  infosets.enum.foldl
    (fun acc p => p.2.foldl (fun acc2 s => assignCol acc2 s (getCol strategy p.1)) acc)
    (zerosMat nc ns)

/-- `ActionNode::action_evs`: row `a` is `infoset_evs` of child `a`'s
payouts and state probabilities, under this node's partition. -/
def action_evs (infosets : List (List ℕ)) (children : List Node) : Mat :=
  children.map (fun c => infoset_evs infosets c.payouts c.state_probabilities)

/-- `ActionNode::current_regret`:
`(action_evs − broadcast_rows(infoset_evs(evs, π))) * sign`. -/
def current_regret (d : AData) (children : List Node) : Mat :=
  mScale (d.sign : ℚ)
    (rowSub (action_evs d.infosets children)
      (infoset_evs d.infosets d.evs d.state_probabilities))

/-- `EPSILON = 1e-8` of `ActionNode::regret_match`. -/
def epsilon : ℚ := 1 / 100000000

/-- One column of `ActionNode::regret_match`: clip the regrets at 0; if the
clipped column sums to 0 produce the uniform distribution over the `nc`
actions, otherwise normalize the `ε`-shifted clipped regrets. -/
def regretMatchCol (col : Vec) (nc : ℕ) : Vec :=
  let rplus := col.map (fun y => if y < 0 then 0 else y)
  if rplus.sum = 0 then
    List.replicate rplus.length ((1 : ℚ) / (nc : ℚ))
  else
    (rplus.map (fun y => y + epsilon)).map
      (fun r => r / ((rplus.map (fun y => y + epsilon)).sum))

/-- Number of columns of a row-major matrix. -/
def ncols (m : Mat) : ℕ := (m.headD []).length

/-- `ActionNode::regret_match`: column `i` of the result is
`regretMatchCol` of column `i` of `regrets`. -/
def regret_match (regrets : Mat) (nc : ℕ) : Mat :=
  (List.range nc).map (fun a =>
    (List.range (ncols regrets)).map (fun i =>
      (regretMatchCol (getCol regrets i) nc).getD a 0))

mutual

/-- `Node::update_probabilities` run on a node whose `state_probabilities`
have just been overwritten with `sp` (the Rust code does the overwrite in
the parent, via `set_state_probabilities`, before recursing). -/
def Node.updateWithSp (sp : Vec) : Node → Node
  | .terminal n _ p => .terminal n sp p
  | .action d ch =>
    let tp := if (d.total_probabilities.sum = 0)
      then infoset_probabilities d.infosets sp
      else d.total_probabilities
    let exp := expand_strategy d.infosets d.strategy ch.length sp.length
    Node.action { d with state_probabilities := sp, total_probabilities := tp }
      (updateChildrenProbs sp exp 0 ch)

/-- The per-child loop of `ActionNode::update_probabilities`: child `a`
receives `π ⊙ expanded[a,·]` and recurses. -/
def updateChildrenProbs (pr : Vec) (exp : Mat) (a : ℕ) : List Node → List Node
  | [] => []
  | c :: cs =>
    Node.updateWithSp (vMul pr (exp.getD a [])) c
      :: updateChildrenProbs pr exp (a + 1) cs

end

/-- `Node::update_probabilities` (downward pass). -/
def Node.update_probabilities (n : Node) : Node :=
  n.updateWithSp n.state_probabilities

mutual

/-- `Node::update_ev` (upward pass): recurse into all children first, then
set `evs = (Σ_a payouts_a ⊙ sp_a) / safeDenom(π)` elementwise. -/
def Node.update_ev : Node → Node
  | .terminal n sp p => .terminal n sp p
  | .action d ch =>
    let ch2 := updateChildrenEv ch
    let num := ch2.foldl
      (fun f c => vAdd f (vMul c.payouts c.state_probabilities))
      (List.replicate d.state_probabilities.length 0)
    Node.action
      { d with evs := List.zipWith (· / ·) num (d.state_probabilities.map safeDenom) }
      ch2

/-- The per-child recursion of `update_ev`. -/
def updateChildrenEv : List Node → List Node
  | [] => []
  | c :: cs => c.update_ev :: updateChildrenEv cs

end

mutual

/-- `Node::update_strategy`: update regrets (running mean of reach-weighted
immediate regrets), regret-match a new strategy, fold it into the average
strategy, bump the counters, then recurse into the children. -/
def Node.update_strategy : Node → Node
  | .terminal n sp p => .terminal n sp p
  | .action d ch =>
    let piI := infoset_probabilities d.infosets d.state_probabilities
    let regrets2 := mScale ((d.iter_count : ℚ) / ((d.iter_count : ℚ) + 1))
      (mAdd d.regrets (rowMul (current_regret d ch) piI))
    let strategy2 := regret_match regrets2 ch.length
    let avg2 := rowDiv
      (mAdd (rowMul d.avg_strategy d.total_probabilities) (rowMul strategy2 piI))
      (vAdd d.total_probabilities piI)
    Node.action
      { d with regrets := regrets2, strategy := strategy2, avg_strategy := avg2,
               iter_count := d.iter_count + 1,
               total_probabilities := vAdd d.total_probabilities piI }
      (updateChildrenStrat ch)

/-- The per-child recursion of `update_strategy`. -/
def updateChildrenStrat : List Node → List Node
  | [] => []
  | c :: cs => c.update_strategy :: updateChildrenStrat cs

end

/-- One complete CFR iteration as the drivers run it: downward pass,
upward pass, strategy update, in that order, on the root. -/
def fullIteration (n : Node) : Node :=
  n.update_probabilities.update_ev.update_strategy

/-- `evs` of a node (empty for terminals). -/
def Node.evsOf : Node → Vec
  | .action d _ => d.evs
  | .terminal _ _ _ => []

/-- Every entry of a vector is nonnegative. -/
def nonnegV (v : Vec) : Prop := ∀ x ∈ v, 0 ≤ x

/-- Every entry of a vector is strictly positive. -/
def posV (v : Vec) : Prop := ∀ x ∈ v, 0 < x

/-- Column `i` of `m` is a probability distribution (nonnegative entries
summing to one). -/
def colDist (m : Mat) (i : ℕ) : Prop :=
  nonnegV (getCol m i) ∧ (getCol m i).sum = 1

/-- Modelled from the spec: the information sets form a partition of
`{0, …, S−1}` — their union is the whole state range and they are
pairwise disjoint.  The repository has no such validation in its source;
this definition only transcribes the spec's construction-time condition. -/
def validPartition (infosets : List (List ℕ)) (S : ℕ) : Prop :=
  (∀ s < S, ∃ iset ∈ infosets, s ∈ iset) ∧
  (∀ iset ∈ infosets, ∀ s ∈ iset, s < S) ∧
  (∀ i < infosets.length, ∀ j < infosets.length, i ≠ j →
    ∀ s ∈ infosets.getD i [], s ∉ infosets.getD j [])

instance (infosets : List (List ℕ)) (S : ℕ) :
    Decidable (validPartition infosets S) := by
  unfold validPartition
  infer_instance

/-- Named subterm of `update_strategy`: the infoset reach vector computed
from the node's current state probabilities. -/
def piOf (d : AData) : Vec :=
  infoset_probabilities d.infosets d.state_probabilities

/-- Named subterm of `update_strategy`: the updated cumulative regrets
`(regrets + cur_regret · π_I) · t/(t+1)`. -/
def newRegrets (d : AData) (ch : List Node) : Mat :=
  mScale ((d.iter_count : ℚ) / ((d.iter_count : ℚ) + 1))
    (mAdd d.regrets (rowMul (current_regret d ch) (piOf d)))

/-- Named subterm of `update_strategy`: the regret-matched new strategy. -/
def newStrategy (d : AData) (ch : List Node) : Mat :=
  regret_match (newRegrets d ch) ch.length

/-- Named subterm of `update_strategy`: the reach-weighted running
average strategy. -/
def newAvg (d : AData) (ch : List Node) : Mat :=
  rowDiv
    (mAdd (rowMul d.avg_strategy d.total_probabilities)
      (rowMul (newStrategy d ch) (piOf d)))
    (vAdd d.total_probabilities (piOf d))

/-- Index-based shape predicate: `A` rows, every in-range row of
length `I`. -/
def matShape (m : Mat) (A I : ℕ) : Prop :=
  m.length = A ∧ ∀ a < A, (m.getD a []).length = I

/-- Canonical default node for list indexing. -/
def dfltN : Node := .terminal "" [] []

/-- A node-local predicate holding at every decision node of a tree. -/
inductive AllDecision (P : AData → List Node → Prop) : Node → Prop where
  | terminal (nm : String) (sp p : Vec) : AllDecision P (.terminal nm sp p)
  | action (d : AData) (ch : List Node) :
      P d ch → (∀ c ∈ ch, AllDecision P c) → AllDecision P (.action d ch)

/-- Data-model invariants of a decision node, as the spec lists them
(shapes consistent with `A = children.length` and `I = infosets.length`,
nonnegative running totals, `strategy`/`avg_strategy` columns are
probability distributions). -/
def preInv (d : AData) (ch : List Node) : Prop :=
  0 < ch.length ∧
  d.regrets.length = ch.length ∧
  (∀ a < ch.length, (d.regrets.getD a []).length = d.infosets.length) ∧
  d.avg_strategy.length = ch.length ∧
  (∀ a < ch.length, (d.avg_strategy.getD a []).length = d.infosets.length) ∧
  d.strategy.length = ch.length ∧
  (∀ a < ch.length, (d.strategy.getD a []).length = d.infosets.length) ∧
  d.total_probabilities.length = d.infosets.length ∧
  nonnegV d.total_probabilities ∧
  (∀ i < d.infosets.length, colDist d.avg_strategy i) ∧
  (∀ i < d.infosets.length, colDist d.strategy i)

/-- Every information set of the node has strictly positive reach. -/
def posReach (d : AData) (ch : List Node) : Prop := posV (piOf d)

/-- State of a decision node between the downward pass and the strategy
update. -/
def midInv (d : AData) (ch : List Node) : Prop :=
  0 < ch.length ∧
  d.regrets.length = ch.length ∧
  (∀ a < ch.length, (d.regrets.getD a []).length = d.infosets.length) ∧
  d.avg_strategy.length = ch.length ∧
  (∀ a < ch.length, (d.avg_strategy.getD a []).length = d.infosets.length) ∧
  d.total_probabilities.length = d.infosets.length ∧
  nonnegV d.total_probabilities ∧
  (∀ i < d.infosets.length, colDist d.avg_strategy i) ∧
  posV (piOf d)

/-- Both strategy matrices have probability-distribution columns. -/
def distInv (d : AData) (ch : List Node) : Prop :=
  ∀ i < d.infosets.length, colDist d.strategy i ∧ colDist d.avg_strategy i

/-- Freshly constructed decision node: uniform `strategy` and
`avg_strategy`, zero `regrets` and `total_probabilities`, `iter_count = 1`. -/
def freshInv (d : AData) (ch : List Node) : Prop :=
  0 < ch.length ∧
  d.strategy = List.replicate ch.length
    (List.replicate d.infosets.length (1 / (ch.length : ℚ))) ∧
  d.avg_strategy = List.replicate ch.length
    (List.replicate d.infosets.length (1 / (ch.length : ℚ))) ∧
  d.regrets = zerosMat ch.length d.infosets.length ∧
  d.total_probabilities = List.replicate d.infosets.length 0 ∧
  d.iter_count = 1

/-- State of a fresh decision node after the first downward pass. -/
def midFresh (d : AData) (ch : List Node) : Prop :=
  0 < ch.length ∧
  d.avg_strategy = List.replicate ch.length
    (List.replicate d.infosets.length (1 / (ch.length : ℚ))) ∧
  d.regrets = zerosMat ch.length d.infosets.length ∧
  d.total_probabilities = piOf d ∧
  posV (piOf d)

/-- After the first strategy update, `avg_strategy` is the average of the
initial uniform strategy and the freshly regret-matched strategy. -/
def avgHalf (d : AData) (ch : List Node) : Prop :=
  ∀ a < ch.length, ∀ i < d.infosets.length,
    matGet d.avg_strategy a i =
      (1 / (ch.length : ℚ) + matGet d.strategy a i) / 2

/-- Decision-node data with a single zero-reach state. -/
def z5d : AData :=
  { name := "root", state_probabilities := [0], total_probabilities := [0],
    evs := [0], infosets := [[0]], strategy := [[1]], avg_strategy := [[1]],
    regrets := [[0]], sign := 1, iter_count := 1 }

/-- Child list of the zero-reach tree. -/
def z5ch : List Node := [Node.terminal "t" [0] [0]]

/-- Zero-reach one-action tree satisfying the data-model invariants. -/
def z5 : Node := .action z5d z5ch

/-- Fresh decision-node data over one state and two actions. -/
def w6d : AData :=
  { name := "root", state_probabilities := [1], total_probabilities := [0],
    evs := [0], infosets := [[0]],
    strategy := [[1/2], [1/2]], avg_strategy := [[1/2], [1/2]],
    regrets := [[0], [0]], sign := 1, iter_count := 1 }

/-- Child list of the fresh two-action tree. -/
def w6ch : List Node := [Node.terminal "a" [0] [1], Node.terminal "b" [0] [0]]

/-- Fresh two-action tree with full reach. -/
def w6 : Node := .action w6d w6ch

/-- Structurally ill-formed decision-node data: one state, no actions,
empty information-set list (not a partition of `{0}`). -/
def b9d : AData :=
  { name := "bad", state_probabilities := [1], total_probabilities := [],
    evs := [5], infosets := [], strategy := [], avg_strategy := [],
    regrets := [], sign := 1, iter_count := 1 }

section ListKit

/-- Entry of a `zipWith` inside both ranges. -/
theorem getD_zipWith {f : ℚ → ℚ → ℚ} {a b : Vec} {i : ℕ}
    (ha : i < a.length) (hb : i < b.length) :
    (List.zipWith f a b).getD i 0 = f (a.getD i 0) (b.getD i 0) := by
  induction a generalizing b i with
  | nil => simp at ha
  | cons x xs ih =>
    cases b with
    | nil => simp at hb
    | cons y ys =>
      cases i with
      | zero => simp
      | succ n => simpa using ih (by simpa using ha) (by simpa using hb)

/-- Entry of a `map` inside range; the defaults are irrelevant. -/
theorem getD_map {α β : Type} (f : α → β) (l : List α) (i : ℕ)
    (da : α) (db : β) (h : i < l.length) :
    (l.map f).getD i db = f (l.getD i da) := by
  induction l generalizing i with
  | nil => simp at h
  | cons x xs ih =>
    cases i with
    | zero => simp
    | succ n => simpa using ih n (by simpa using h)

/-- Entry of a map over `List.range` is the function at the index. -/
theorem getD_range_map {α : Type} (g : ℕ → α) (n i : ℕ) (d : α)
    (h : i < n) :
    ((List.range n).map g).getD i d = g i := by
  induction n generalizing g i with
  | zero => simp at h
  | succ m ih =>
    rw [List.range_succ_eq_map, List.map_cons, List.map_map]
    cases i with
    | zero => simp
    | succ k => simpa using ih (fun j => g (j + 1)) k (by omega)

/-- Reading every position of a list back off by index reproduces it. -/
theorem range_map_getD {α : Type} (L : List α) (d : α) :
    (List.range L.length).map (fun a => L.getD a d) = L := by
  induction L with
  | nil => simp
  | cons x xs ih =>
    rw [List.length_cons, List.range_succ_eq_map, List.map_cons, List.map_map]
    simp only [Function.comp_def, List.getD_cons_succ, List.getD_cons_zero]
    rw [ih]

/-- A column of a matrix, reindexed through `List.range`. -/
theorem getCol_eq_range_map (m : Mat) (i : ℕ) :
    getCol m i = (List.range m.length).map (fun a => matGet m a i) := by
  unfold getCol matGet
  conv_lhs => rw [← range_map_getD m []]
  rw [List.map_map]
  rfl

/-- Distributing a constant division out of a mapped sum. -/
theorem sum_map_div {α : Type} (l : List α) (g : α → ℚ) (D : ℚ) :
    (l.map (fun a => g a / D)).sum = (l.map g).sum / D := by
  induction l with
  | nil => simp
  | cons x xs ih => simp [ih, add_div]

/-- A mapped sum of pointwise sums splits. -/
theorem sum_map_add {α : Type} (l : List α) (f g : α → ℚ) :
    (l.map (fun a => f a + g a)).sum = (l.map f).sum + (l.map g).sum := by
  induction l with
  | nil => simp
  | cons x xs ih => simp [ih]; ring

/-- A constant right factor pulls out of a mapped sum. -/
theorem sum_map_mul_right {α : Type} (l : List α) (f : α → ℚ) (c : ℚ) :
    (l.map (fun a => f a * c)).sum = (l.map f).sum * c := by
  induction l with
  | nil => simp
  | cons x xs ih => simp [ih]; ring

/-- Adding a constant to every entry adds `length • c` to the sum. -/
theorem sum_map_add_const (l : Vec) (c : ℚ) :
    (l.map (fun y => y + c)).sum = l.sum + l.length * c := by
  induction l with
  | nil => simp
  | cons x xs ih => simp [ih]; ring

/-- An in-range `getD` is a member of the list. -/
theorem getD_mem {α : Type} (l : List α) (i : ℕ) (d : α)
    (h : i < l.length) : l.getD i d ∈ l := by
  induction l generalizing i with
  | nil => simp at h
  | cons x xs ih =>
    cases i with
    | zero => simp
    | succ n => simpa using Or.inr (ih n (by simpa using h))

end ListKit

section Unfold



theorem updateWithSp_terminal (sp : Vec) (nm : String) (sp0 p : Vec) :
    Node.updateWithSp sp (.terminal nm sp0 p) = .terminal nm sp p := by
  simp [Node.updateWithSp]

theorem updateWithSp_action (sp : Vec) (d : AData) (ch : List Node) :
    Node.updateWithSp sp (.action d ch) =
      Node.action
        { d with state_probabilities := sp,
                 total_probabilities :=
                   if d.total_probabilities.sum = 0
                   then infoset_probabilities d.infosets sp
                   else d.total_probabilities }
        (updateChildrenProbs sp
          (expand_strategy d.infosets d.strategy ch.length sp.length) 0 ch) := by
  simp [Node.updateWithSp]

theorem updateChildrenProbs_nil (pr : Vec) (exp : Mat) (a : ℕ) :
    updateChildrenProbs pr exp a [] = [] := by
  simp [updateChildrenProbs]

theorem updateChildrenProbs_cons (pr : Vec) (exp : Mat) (a : ℕ)
    (c : Node) (cs : List Node) :
    updateChildrenProbs pr exp a (c :: cs) =
      Node.updateWithSp (vMul pr (exp.getD a [])) c
        :: updateChildrenProbs pr exp (a + 1) cs := by
  simp [updateChildrenProbs]

theorem update_probabilities_terminal (nm : String) (sp p : Vec) :
    Node.update_probabilities (.terminal nm sp p) = .terminal nm sp p := by
  simp [Node.update_probabilities, Node.state_probabilities, updateWithSp_terminal]

theorem update_probabilities_action (d : AData) (ch : List Node) :
    Node.update_probabilities (.action d ch) =
      Node.updateWithSp d.state_probabilities (.action d ch) := by
  simp [Node.update_probabilities, Node.state_probabilities]

theorem setSp_then_update (c : Node) (v : Vec) :
    (c.set_state_probabilities v).update_probabilities = c.updateWithSp v := by
  cases c with
  | action d ch =>
    rw [Node.set_state_probabilities, Node.update_probabilities]
    simp only [Node.state_probabilities]
    rw [updateWithSp_action, updateWithSp_action]
  | terminal nm sp p =>
    rw [Node.set_state_probabilities, Node.update_probabilities]
    simp only [Node.state_probabilities]
    rw [updateWithSp_terminal, updateWithSp_terminal]

theorem update_ev_terminal (nm : String) (sp p : Vec) :
    Node.update_ev (.terminal nm sp p) = .terminal nm sp p := by
  simp [Node.update_ev]

theorem updateChildrenEv_eq_map (cs : List Node) :
    updateChildrenEv cs = cs.map Node.update_ev := by
  induction cs with
  | nil => simp [updateChildrenEv]
  | cons c cs ih => simp [updateChildrenEv, ih]

theorem update_ev_action (d : AData) (ch : List Node) :
    Node.update_ev (.action d ch) =
      Node.action
        { d with evs :=
            (List.zipWith (· / ·)
              ((updateChildrenEv ch).foldl
                (fun f c => vAdd f (vMul c.payouts c.state_probabilities))
                (List.replicate d.state_probabilities.length 0))
              (d.state_probabilities.map safeDenom)) }
        (updateChildrenEv ch) := by
  simp [Node.update_ev]

theorem updateChildrenStrat_eq_map (cs : List Node) :
    updateChildrenStrat cs = cs.map Node.update_strategy := by
  induction cs with
  | nil => simp [updateChildrenStrat]
  | cons c cs ih => simp [updateChildrenStrat, ih]

theorem update_strategy_terminal (nm : String) (sp p : Vec) :
    Node.update_strategy (.terminal nm sp p) = .terminal nm sp p := by
  simp [Node.update_strategy]

theorem update_strategy_action (d : AData) (ch : List Node) :
    Node.update_strategy (.action d ch) =
      Node.action
        { d with regrets := newRegrets d ch,
                 strategy := newStrategy d ch,
                 avg_strategy := newAvg d ch,
                 iter_count := d.iter_count + 1,
                 total_probabilities := vAdd d.total_probabilities (piOf d) }
        (updateChildrenStrat ch) := by
  simp [Node.update_strategy, newRegrets, newStrategy, newAvg, piOf]

end Unfold

section Shapes



theorem length_infoset_probabilities (isets : List (List ℕ)) (sp : Vec) :
    (infoset_probabilities isets sp).length = isets.length := by
  simp [infoset_probabilities]

theorem length_infoset_evs (isets : List (List ℕ)) (evs sp : Vec) :
    (infoset_evs isets evs sp).length = isets.length := by
  simp [infoset_evs, infoset_probabilities]

theorem length_action_evs (isets : List (List ℕ)) (ch : List Node) :
    (action_evs isets ch).length = ch.length := by
  simp [action_evs]

theorem getD_infoset_probabilities (isets : List (List ℕ)) (sp : Vec)
    (i : ℕ) (h : i < isets.length) :
    (infoset_probabilities isets sp).getD i 0 =
      ((isets.getD i []).map (fun s => sp.getD s 0)).sum := by
  unfold infoset_probabilities
  rw [getD_map _ _ i [] 0 h]

theorem getD_zipWith' {α β γ : Type} (f : α → β → γ) (a : List α)
    (b : List β) (i : ℕ) (da : α) (db : β) (dc : γ)
    (ha : i < a.length) (hb : i < b.length) :
    (List.zipWith f a b).getD i dc = f (a.getD i da) (b.getD i db) := by
  induction a generalizing b i with
  | nil => simp at ha
  | cons x xs ih =>
    cases b with
    | nil => simp at hb
    | cons y ys =>
      cases i with
      | zero => simp
      | succ n => simpa using ih ys n (by simpa using ha) (by simpa using hb)

theorem getD_infoset_evs (isets : List (List ℕ)) (evs sp : Vec)
    (i : ℕ) (h : i < isets.length) :
    (infoset_evs isets evs sp).getD i 0 =
      ((isets.getD i []).map (fun s => evs.getD s 0 * sp.getD s 0)).sum
        / safeDenom ((infoset_probabilities isets sp).getD i 0) := by
  unfold infoset_evs
  rw [getD_zipWith' _ _ _ i 0 0 0 (by simpa using h)
    (by simp [length_infoset_probabilities]; exact h)]
  rw [getD_map _ _ i [] 0 h, getD_map _ _ i 0 0
    (by simp [length_infoset_probabilities]; exact h)]

theorem row_action_evs (isets : List (List ℕ)) (ch : List Node) (a : ℕ)
    (ha : a < ch.length) :
    (action_evs isets ch).getD a [] =
      infoset_evs isets ((ch.getD a dfltN).payouts)
        ((ch.getD a dfltN).state_probabilities) := by
  unfold action_evs
  rw [getD_map _ _ a dfltN [] ha]

theorem row_mScale (c : ℚ) (m : Mat) (a : ℕ) (ha : a < m.length) :
    (mScale c m).getD a [] = (m.getD a []).map (fun x => c * x) := by
  unfold mScale
  rw [getD_map _ _ a [] [] ha]

theorem row_mAdd (m n : Mat) (a : ℕ) (h1 : a < m.length)
    (h2 : a < n.length) :
    (mAdd m n).getD a [] = vAdd (m.getD a []) (n.getD a []) := by
  unfold mAdd
  rw [getD_zipWith' _ _ _ a [] [] [] h1 h2]

theorem row_rowMul (m : Mat) (v : Vec) (a : ℕ) (ha : a < m.length) :
    (rowMul m v).getD a [] = vMul (m.getD a []) v := by
  unfold rowMul
  rw [getD_map _ _ a [] [] ha]

theorem row_rowSub (m : Mat) (v : Vec) (a : ℕ) (ha : a < m.length) :
    (rowSub m v).getD a [] = List.zipWith (· - ·) (m.getD a []) v := by
  unfold rowSub
  rw [getD_map _ _ a [] [] ha]

theorem row_rowDiv (m : Mat) (v : Vec) (a : ℕ) (ha : a < m.length) :
    (rowDiv m v).getD a [] = List.zipWith (· / ·) (m.getD a []) v := by
  unfold rowDiv
  rw [getD_map _ _ a [] [] ha]

theorem length_current_regret (d : AData) (ch : List Node) :
    (current_regret d ch).length = ch.length := by
  simp [current_regret, mScale, rowSub, action_evs]

theorem row_length_current_regret (d : AData) (ch : List Node) (a : ℕ)
    (ha : a < ch.length) :
    ((current_regret d ch).getD a []).length = d.infosets.length := by
  unfold current_regret
  rw [row_mScale _ _ _ (by rw [rowSub, List.length_map, length_action_evs]; exact ha)]
  rw [row_rowSub _ _ _ (by rw [length_action_evs]; exact ha)]
  rw [row_action_evs _ _ _ ha]
  simp [length_infoset_evs]

theorem matGet_current_regret (d : AData) (ch : List Node) (a i : ℕ)
    (ha : a < ch.length) (hi : i < d.infosets.length) :
    matGet (current_regret d ch) a i =
      (d.sign : ℚ) *
        (matGet (action_evs d.infosets ch) a i
          - (infoset_evs d.infosets d.evs d.state_probabilities).getD i 0) := by
  unfold matGet current_regret
  rw [row_mScale _ _ _ (by rw [rowSub, List.length_map, length_action_evs]; exact ha)]
  rw [getD_map _ _ i 0 0 (by
    rw [row_rowSub _ _ _ (by rw [length_action_evs]; exact ha)]
    rw [List.length_zipWith, row_action_evs _ _ _ ha, length_infoset_evs,
      length_infoset_evs]
    omega)]
  rw [row_rowSub _ _ _ (by rw [length_action_evs]; exact ha)]
  rw [getD_zipWith' _ _ _ i 0 0 0
    (by rw [row_action_evs _ _ _ ha, length_infoset_evs]; exact hi)
    (by rw [length_infoset_evs]; exact hi)]

theorem shape_newRegrets (d : AData) (ch : List Node)
    (h1 : d.regrets.length = ch.length)
    (h2 : ∀ a < ch.length, (d.regrets.getD a []).length = d.infosets.length) :
    matShape (newRegrets d ch) ch.length d.infosets.length := by
  constructor
  · simp [newRegrets, mScale, mAdd, rowMul, length_current_regret, h1]
  · intro a ha
    unfold newRegrets
    rw [row_mScale _ _ _ (by
      simp [mAdd, rowMul, length_current_regret, h1]; omega)]
    rw [List.length_map]
    rw [row_mAdd _ _ _ (by omega) (by
      simp [rowMul, length_current_regret]; exact ha)]
    rw [vAdd, List.length_zipWith, h2 a ha]
    rw [row_rowMul _ _ _ (by rw [length_current_regret]; exact ha)]
    rw [vMul, List.length_zipWith, row_length_current_regret _ _ _ ha]
    simp [piOf, length_infoset_probabilities]

theorem matGet_newRegrets (d : AData) (ch : List Node) (a i : ℕ)
    (ha : a < ch.length) (hi : i < d.infosets.length)
    (h1 : d.regrets.length = ch.length)
    (h2 : ∀ a < ch.length, (d.regrets.getD a []).length = d.infosets.length) :
    matGet (newRegrets d ch) a i =
      ((d.iter_count : ℚ) / ((d.iter_count : ℚ) + 1)) *
        (matGet d.regrets a i
          + matGet (current_regret d ch) a i * (piOf d).getD i 0) := by
  unfold newRegrets matGet
  rw [row_mScale _ _ _ (by
    simp [mAdd, rowMul, length_current_regret, h1]; omega)]
  rw [getD_map _ _ i 0 0 (by
    rw [row_mAdd _ _ _ (by omega) (by simp [rowMul, length_current_regret]; exact ha)]
    rw [vAdd, List.length_zipWith, h2 a ha]
    rw [row_rowMul _ _ _ (by rw [length_current_regret]; exact ha)]
    rw [vMul, List.length_zipWith, row_length_current_regret _ _ _ ha]
    simp [piOf, length_infoset_probabilities]
    omega)]
  rw [row_mAdd _ _ _ (by omega) (by simp [rowMul, length_current_regret]; exact ha)]
  rw [vAdd]
  rw [getD_zipWith' _ _ _ i 0 0 0 (by rw [h2 a ha]; exact hi) (by
    rw [row_rowMul _ _ _ (by rw [length_current_regret]; exact ha)]
    rw [vMul, List.length_zipWith, row_length_current_regret _ _ _ ha]
    simp [piOf, length_infoset_probabilities]
    exact hi)]
  rw [row_rowMul _ _ _ (by rw [length_current_regret]; exact ha)]
  rw [vMul, getD_zipWith' _ _ _ i 0 0 0
    (by rw [row_length_current_regret _ _ _ ha]; exact hi)
    (by simp [piOf, length_infoset_probabilities]; exact hi)]

end Shapes

section RegretMatchLemmas

theorem length_getCol (m : Mat) (i : ℕ) : (getCol m i).length = m.length := by
  simp [getCol]

theorem length_regretMatchCol (col : Vec) (nc : ℕ) :
    (regretMatchCol col nc).length = col.length := by
  unfold regretMatchCol
  by_cases h : (col.map (fun y => if y < 0 then 0 else y)).sum = 0 <;> simp [h]

theorem length_regret_match (m : Mat) (nc : ℕ) :
    (regret_match m nc).length = nc := by
  simp [regret_match]

theorem row_length_regret_match (m : Mat) (nc a : ℕ) (ha : a < nc) :
    ((regret_match m nc).getD a []).length = ncols m := by
  unfold regret_match
  rw [getD_range_map _ _ _ _ ha]
  simp

theorem ncols_of_shape (m : Mat) (A I : ℕ) (hs : matShape m A I)
    (hA : 0 < A) : ncols m = I := by
  unfold ncols
  have h0 := hs.2 0 hA
  cases m with
  | nil =>
    have h1 := hs.1
    simp at h1
    omega
  | cons r rs => simpa using h0

theorem range_map_getD' {α : Type} (L : List α) (d : α) (n : ℕ)
    (h : L.length = n) :
    (List.range n).map (fun a => L.getD a d) = L := by
  subst h
  exact range_map_getD L d

theorem getCol_regret_match (m : Mat) (nc i : ℕ) (hi : i < ncols m)
    (hlen : m.length = nc) :
    getCol (regret_match m nc) i = regretMatchCol (getCol m i) nc := by
  have hL : (regretMatchCol (getCol m i) nc).length = nc := by
    rw [length_regretMatchCol, length_getCol, hlen]
  conv_rhs => rw [← range_map_getD' (regretMatchCol (getCol m i) nc) 0 nc hL]
  unfold getCol regret_match
  rw [List.map_map]
  apply List.map_congr_left
  intro a _
  simp only [Function.comp_apply]
  exact getD_range_map _ _ _ _ hi

theorem rplus_nonneg (col : Vec) :
    ∀ x ∈ col.map (fun y => if y < 0 then 0 else y), 0 ≤ x := by
  intro x hx
  rcases List.mem_map.mp hx with ⟨y, _, rfl⟩
  by_cases hy : y < 0
  · simp [hy]
  · simp only [if_neg hy]
    linarith

theorem rplus_shift_sum_pos (col : Vec) (hne : ¬ (col.map (fun y => if y < 0 then 0 else y)).sum = 0) :
    0 < ((col.map (fun y => if y < 0 then 0 else y)).map (fun y => y + epsilon)).sum := by
  rw [sum_map_add_const]
  have h1 : 0 ≤ (col.map (fun y => if y < 0 then 0 else y)).sum :=
    List.sum_nonneg (rplus_nonneg col)
  have h2 : (0:ℚ) < epsilon := by norm_num [epsilon]
  have h3 : 0 < (col.map (fun y => if y < 0 then 0 else y)).sum := lt_of_le_of_ne h1 (Ne.symm hne)
  have h4 : (0:ℚ) ≤ ((col.map (fun y => if y < 0 then 0 else y)).length : ℚ) := by positivity
  nlinarith

theorem regretMatchCol_nonneg (col : Vec) (nc : ℕ) (hnc : 0 < nc) :
    ∀ x ∈ regretMatchCol col nc, 0 ≤ x := by
  intro x hx
  unfold regretMatchCol at hx
  by_cases h : (col.map (fun y => if y < 0 then 0 else y)).sum = 0
  · rw [if_pos h] at hx
    rcases List.eq_of_mem_replicate hx with rfl
    positivity
  · rw [if_neg h] at hx
    rcases List.mem_map.mp hx with ⟨y, hy, rfl⟩
    rcases List.mem_map.mp hy with ⟨z, hz, rfl⟩
    have hz0 : 0 ≤ z := rplus_nonneg col z hz
    have hD := rplus_shift_sum_pos col h
    have he : (0:ℚ) < epsilon := by norm_num [epsilon]
    positivity

theorem regretMatchCol_sum (col : Vec) (nc : ℕ) (hnc : 0 < nc)
    (hlen : col.length = nc) :
    (regretMatchCol col nc).sum = 1 := by
  unfold regretMatchCol
  by_cases h : (col.map (fun y => if y < 0 then 0 else y)).sum = 0
  · rw [if_pos h]
    rw [List.sum_replicate]
    simp only [List.length_map, hlen]
    rw [nsmul_eq_mul]
    have : (nc:ℚ) ≠ 0 := by positivity
    field_simp
  · rw [if_neg h]
    have hD := rplus_shift_sum_pos col h
    rw [sum_map_div]
    rw [show (fun r : ℚ => r) = id from rfl, List.map_id]
    exact div_self (ne_of_gt hD)

theorem shape_newStrategy (d : AData) (ch : List Node)
    (hA : 0 < ch.length)
    (h1 : d.regrets.length = ch.length)
    (h2 : ∀ a < ch.length, (d.regrets.getD a []).length = d.infosets.length) :
    matShape (newStrategy d ch) ch.length d.infosets.length := by
  have hsh := shape_newRegrets d ch h1 h2
  have hn : ncols (newRegrets d ch) = d.infosets.length :=
    ncols_of_shape _ _ _ hsh hA
  refine ⟨?_, ?_⟩
  · unfold newStrategy
    exact length_regret_match _ _
  · intro a ha
    unfold newStrategy
    rw [row_length_regret_match _ _ _ ha, hn]

theorem getCol_newStrategy (d : AData) (ch : List Node) (i : ℕ)
    (hi : i < d.infosets.length) (hA : 0 < ch.length)
    (h1 : d.regrets.length = ch.length)
    (h2 : ∀ a < ch.length, (d.regrets.getD a []).length = d.infosets.length) :
    getCol (newStrategy d ch) i =
      regretMatchCol (getCol (newRegrets d ch) i) ch.length := by
  have hsh := shape_newRegrets d ch h1 h2
  exact getCol_regret_match _ _ _
    (by rw [ncols_of_shape _ _ _ hsh hA]; exact hi) hsh.1

theorem colDist_newStrategy (d : AData) (ch : List Node) (i : ℕ)
    (hi : i < d.infosets.length) (hA : 0 < ch.length)
    (h1 : d.regrets.length = ch.length)
    (h2 : ∀ a < ch.length, (d.regrets.getD a []).length = d.infosets.length) :
    colDist (newStrategy d ch) i := by
  rw [colDist, getCol_newStrategy d ch i hi hA h1 h2]
  have hsh := shape_newRegrets d ch h1 h2
  have hcl : (getCol (newRegrets d ch) i).length = ch.length := by
    rw [length_getCol, hsh.1]
  exact ⟨regretMatchCol_nonneg _ _ hA, regretMatchCol_sum _ _ hA hcl⟩

end RegretMatchLemmas

section AvgLemmas

theorem length_newAvg (d : AData) (ch : List Node)
    (ha : d.avg_strategy.length = ch.length) :
    (newAvg d ch).length = min ch.length ch.length := by
  simp [newAvg, rowDiv, mAdd, rowMul, ha, length_regret_match, newStrategy]

theorem matGet_newAvg (d : AData) (ch : List Node) (a i : ℕ)
    (haA : a < ch.length) (hi : i < d.infosets.length)
    (hA : 0 < ch.length)
    (hav1 : d.avg_strategy.length = ch.length)
    (hav2 : ∀ b < ch.length, (d.avg_strategy.getD b []).length = d.infosets.length)
    (htp : d.total_probabilities.length = d.infosets.length)
    (h1 : d.regrets.length = ch.length)
    (h2 : ∀ b < ch.length, (d.regrets.getD b []).length = d.infosets.length) :
    matGet (newAvg d ch) a i =
      (matGet d.avg_strategy a i * d.total_probabilities.getD i 0
        + matGet (newStrategy d ch) a i * (piOf d).getD i 0)
      / (d.total_probabilities.getD i 0 + (piOf d).getD i 0) := by
  have hs2 := shape_newStrategy d ch hA h1 h2
  have hpi : (piOf d).length = d.infosets.length := by
    simp [piOf, length_infoset_probabilities]
  have hrowavg : (d.avg_strategy.getD a []).length = d.infosets.length :=
    hav2 a haA
  have hrows2 : ((newStrategy d ch).getD a []).length = d.infosets.length :=
    hs2.2 a haA
  have hmul1 : (vMul (d.avg_strategy.getD a []) d.total_probabilities).length
      = d.infosets.length := by
    rw [vMul, List.length_zipWith, hrowavg, htp]; omega
  have hmul2 : (vMul ((newStrategy d ch).getD a []) (piOf d)).length
      = d.infosets.length := by
    rw [vMul, List.length_zipWith, hrows2, hpi]; omega
  unfold newAvg matGet
  rw [row_rowDiv _ _ _ (by
    simp only [mAdd, List.length_zipWith, rowMul, List.length_map, hav1, hs2.1]
    omega)]
  rw [getD_zipWith' _ _ _ i 0 0 0
    (by
      rw [row_mAdd _ _ _ (by simp [rowMul, hav1]; omega)
        (by simp [rowMul, hs2.1]; omega)]
      rw [row_rowMul _ _ _ (by rw [hav1]; exact haA),
        row_rowMul _ _ _ (by rw [hs2.1]; exact haA)]
      rw [vAdd, List.length_zipWith, hmul1, hmul2]
      omega)
    (by rw [vAdd, List.length_zipWith, htp, hpi]; omega)]
  rw [row_mAdd _ _ _ (by simp [rowMul, hav1]; omega)
    (by simp [rowMul, hs2.1]; omega)]
  rw [row_rowMul _ _ _ (by rw [hav1]; exact haA),
    row_rowMul _ _ _ (by rw [hs2.1]; exact haA)]
  rw [vAdd, getD_zipWith' _ _ _ i 0 0 0 (by rw [hmul1]; exact hi)
    (by rw [hmul2]; exact hi)]
  rw [vMul, getD_zipWith' _ _ _ i 0 0 0 (by rw [hrowavg]; exact hi)
    (by rw [htp]; exact hi)]
  rw [vMul, getD_zipWith' _ _ _ i 0 0 0 (by rw [hrows2]; exact hi)
    (by rw [hpi]; exact hi)]
  rw [vAdd, getD_zipWith' _ _ _ i 0 0 0 (by rw [htp]; exact hi)
    (by rw [hpi]; exact hi)]

theorem colSum_newAvg (d : AData) (ch : List Node) (i : ℕ)
    (hi : i < d.infosets.length) (hA : 0 < ch.length)
    (hav1 : d.avg_strategy.length = ch.length)
    (hav2 : ∀ b < ch.length, (d.avg_strategy.getD b []).length = d.infosets.length)
    (htp : d.total_probabilities.length = d.infosets.length)
    (h1 : d.regrets.length = ch.length)
    (h2 : ∀ b < ch.length, (d.regrets.getD b []).length = d.infosets.length) :
    (getCol (newAvg d ch) i).sum =
      (d.total_probabilities.getD i 0 * (getCol d.avg_strategy i).sum
        + (piOf d).getD i 0 * (getCol (newStrategy d ch) i).sum)
      / (d.total_probabilities.getD i 0 + (piOf d).getD i 0) := by
  have hs2 := shape_newStrategy d ch hA h1 h2
  rw [getCol_eq_range_map (newAvg d ch) i, length_newAvg d ch hav1]
  have hmin : min ch.length ch.length = ch.length := by omega
  rw [hmin]
  rw [List.map_congr_left (fun a haR => by
    have haA : a < ch.length := List.mem_range.mp haR
    exact matGet_newAvg d ch a i haA hi hA hav1 hav2 htp h1 h2)]
  rw [sum_map_div, sum_map_add, sum_map_mul_right, sum_map_mul_right]
  rw [getCol_eq_range_map d.avg_strategy i, hav1,
    getCol_eq_range_map (newStrategy d ch) i, hs2.1]
  ring_nf

end AvgLemmas

section Tree



/-- Structural induction over the (nested) tree type. -/
theorem Node.myInd (motive : Node → Prop)
    (ht : ∀ nm sp p, motive (.terminal nm sp p))
    (ha : ∀ d ch, (∀ c ∈ ch, motive c) → motive (.action d ch)) :
    ∀ n, motive n
  | .terminal nm sp p => ht nm sp p
  | .action d ch => ha d ch (fun c hc => Node.myInd motive ht ha c)
termination_by n => sizeOf n
decreasing_by
  simp_wf
  have := List.sizeOf_lt_of_mem hc
  omega

theorem allDecision_action_elim {P : AData → List Node → Prop}
    {d : AData} {ch : List Node} (h : AllDecision P (.action d ch)) :
    P d ch ∧ ∀ c ∈ ch, AllDecision P c := by
  cases h with
  | action d ch h1 h2 => exact ⟨h1, h2⟩

theorem length_updateChildrenProbs (pr : Vec) (exp : Mat) :
    ∀ (cs : List Node) (a : ℕ),
      (updateChildrenProbs pr exp a cs).length = cs.length := by
  intro cs
  induction cs with
  | nil => intro a; rw [updateChildrenProbs_nil]
  | cons c cs ih =>
    intro a
    rw [updateChildrenProbs_cons]
    simp [ih]

theorem getD_updateChildrenProbs (pr : Vec) (exp : Mat) :
    ∀ (cs : List Node) (a k : ℕ), k < cs.length →
      (updateChildrenProbs pr exp a cs).getD k dfltN
        = Node.updateWithSp (vMul pr (exp.getD (a + k) [])) (cs.getD k dfltN) := by
  intro cs
  induction cs with
  | nil => intro a k h; simp at h
  | cons c cs ih =>
    intro a k h
    rw [updateChildrenProbs_cons]
    cases k with
    | zero => simp
    | succ k2 =>
      simp only [List.getD_cons_succ]
      rw [ih (a + 1) k2 (by simpa using h)]
      have harith : a + 1 + k2 = a + (k2 + 1) := by omega
      rw [harith]

theorem mem_updateChildrenProbs (pr : Vec) (exp : Mat) :
    ∀ (cs : List Node) (a : ℕ) (c2 : Node),
      c2 ∈ updateChildrenProbs pr exp a cs →
      ∃ c ∈ cs, ∃ k, c2 = Node.updateWithSp (vMul pr (exp.getD k [])) c := by
  intro cs
  induction cs with
  | nil => intro a c2 h; rw [updateChildrenProbs_nil] at h; simp at h
  | cons c cs ih =>
    intro a c2 h
    rw [updateChildrenProbs_cons] at h
    rcases List.mem_cons.mp h with h1 | h2
    · exact ⟨c, List.mem_cons_self c cs, a, h1⟩
    · rcases ih (a + 1) c2 h2 with ⟨c0, hc0, k, hk⟩
      exact ⟨c0, List.mem_cons_of_mem c hc0, k, hk⟩



theorem downward_midInv : ∀ (n : Node) (sp : Vec),
    AllDecision preInv n →
    AllDecision posReach (n.updateWithSp sp) →
    AllDecision midInv (n.updateWithSp sp) := by
  intro n
  induction n using Node.myInd with
  | ht nm sp0 p =>
    intro sp _ _
    rw [updateWithSp_terminal]
    exact AllDecision.terminal nm sp p
  | ha d ch ih =>
    intro sp hpre hpos
    rw [updateWithSp_action] at hpos ⊢
    rcases allDecision_action_elim hpre with ⟨hp, hch⟩
    rcases allDecision_action_elim hpos with ⟨hq, hch2⟩
    apply AllDecision.action
    · obtain ⟨hA, hr1, hr2, ha1, ha2, _, _, ht1, ht2, hd1, _⟩ := hp
      have hlen : (updateChildrenProbs sp
          (expand_strategy d.infosets d.strategy ch.length sp.length) 0 ch).length
          = ch.length := length_updateChildrenProbs _ _ _ _
      simp only [midInv, hlen]
      refine ⟨hA, hr1, hr2, ha1, ha2, ?_, ?_, hd1, hq⟩
      · by_cases h0 : d.total_probabilities.sum = 0
        · rw [if_pos h0]
          exact length_infoset_probabilities _ _
        · rw [if_neg h0]
          exact ht1
      · by_cases h0 : d.total_probabilities.sum = 0
        · rw [if_pos h0]
          exact fun x hx => le_of_lt (hq x hx)
        · rw [if_neg h0]
          exact ht2
    · intro c2 hc2
      rcases mem_updateChildrenProbs _ _ _ _ _ hc2 with ⟨c, hc, k, rfl⟩
      exact ih c hc _ (hch c hc) (hch2 _ hc2)

theorem upward_midInv : ∀ (n : Node),
    AllDecision midInv n → AllDecision midInv n.update_ev := by
  intro n
  induction n using Node.myInd with
  | ht nm sp p =>
    intro _
    rw [update_ev_terminal]
    exact AllDecision.terminal nm sp p
  | ha d ch ih =>
    intro hmid
    rcases allDecision_action_elim hmid with ⟨hp, hch⟩
    rw [update_ev_action]
    apply AllDecision.action
    · obtain ⟨hA, hr1, hr2, ha1, ha2, ht1, ht2, hd1, hpos⟩ := hp
      have hlen : (updateChildrenEv ch).length = ch.length := by
        rw [updateChildrenEv_eq_map]
        simp
      simp only [midInv, hlen]
      exact ⟨hA, hr1, hr2, ha1, ha2, ht1, ht2, hd1, hpos⟩
    · intro c2 hc2
      rw [updateChildrenEv_eq_map] at hc2
      rcases List.mem_map.mp hc2 with ⟨c, hc, rfl⟩
      exact ih c hc (hch c hc)

theorem strategy_distInv : ∀ (n : Node),
    AllDecision midInv n → AllDecision distInv n.update_strategy := by
  intro n
  induction n using Node.myInd with
  | ht nm sp p =>
    intro _
    rw [update_strategy_terminal]
    exact AllDecision.terminal nm sp p
  | ha d ch ih =>
    intro hmid
    rcases allDecision_action_elim hmid with ⟨hp, hch⟩
    rw [update_strategy_action]
    apply AllDecision.action
    · obtain ⟨hA, hr1, hr2, ha1, ha2, ht1, ht2, hd1, hpos⟩ := hp
      intro i hi
      have hSdist := colDist_newStrategy d ch i hi hA hr1 hr2
      refine ⟨hSdist, ?_, ?_⟩
      · intro x hx
        rw [getCol_eq_range_map (newAvg d ch) i, length_newAvg d ch ha1] at hx
        rcases List.mem_map.mp hx with ⟨a, haR, rfl⟩
        have haA : a < ch.length := by
          have := List.mem_range.mp haR
          omega
        rw [matGet_newAvg d ch a i haA hi hA ha1 ha2 ht1 hr1 hr2]
        have hxa : 0 ≤ matGet d.avg_strategy a i := by
          apply (hd1 i hi).1
          unfold getCol matGet
          exact List.mem_map_of_mem _ (getD_mem _ a [] (by rw [ha1]; exact haA))
        have hya : 0 ≤ matGet (newStrategy d ch) a i := by
          apply hSdist.1
          unfold getCol matGet
          exact List.mem_map_of_mem _ (getD_mem _ a []
            (by rw [(shape_newStrategy d ch hA hr1 hr2).1]; exact haA))
        have hT : 0 ≤ d.total_probabilities.getD i 0 :=
          ht2 _ (getD_mem _ i 0 (by rw [ht1]; exact hi))
        have hpi : 0 < (piOf d).getD i 0 := by
          apply hpos
          exact getD_mem _ i 0 (by
            simp [piOf, length_infoset_probabilities]; exact hi)
        have hnum : 0 ≤ matGet d.avg_strategy a i * d.total_probabilities.getD i 0
            + matGet (newStrategy d ch) a i * (piOf d).getD i 0 := by positivity
        positivity
      · rw [colSum_newAvg d ch i hi hA ha1 ha2 ht1 hr1 hr2]
        rw [(hd1 i hi).2, hSdist.2]
        have hT : 0 ≤ d.total_probabilities.getD i 0 :=
          ht2 _ (getD_mem _ i 0 (by rw [ht1]; exact hi))
        have hpi : 0 < (piOf d).getD i 0 := by
          apply hpos
          exact getD_mem _ i 0 (by
            simp [piOf, length_infoset_probabilities]; exact hi)
        rw [mul_one, mul_one]
        exact div_self (by positivity)
    · intro c2 hc2
      rw [updateChildrenStrat_eq_map] at hc2
      rcases List.mem_map.mp hc2 with ⟨c, hc, rfl⟩
      exact ih c hc (hch c hc)

end Tree

section Fresh

theorem getD_replicate {α : Type} (x : α) (n i : ℕ) (d : α) (h : i < n) :
    (List.replicate n x).getD i d = x := by
  induction n generalizing i with
  | zero => simp at h
  | succ m ih =>
    cases i with
    | zero => simp [List.replicate]
    | succ k => simpa [List.replicate] using ih k (by omega)



theorem downward_midFresh : ∀ (n : Node) (sp : Vec),
    AllDecision freshInv n →
    AllDecision posReach (n.updateWithSp sp) →
    AllDecision midFresh (n.updateWithSp sp) := by
  intro n
  induction n using Node.myInd with
  | ht nm sp0 p =>
    intro sp _ _
    rw [updateWithSp_terminal]
    exact AllDecision.terminal nm sp p
  | ha d ch ih =>
    intro sp hpre hpos
    rw [updateWithSp_action] at hpos ⊢
    rcases allDecision_action_elim hpre with ⟨hp, hch⟩
    rcases allDecision_action_elim hpos with ⟨hq, hch2⟩
    apply AllDecision.action
    · obtain ⟨hA, _, hav, hreg, htp, _⟩ := hp
      have hlen : (updateChildrenProbs sp
          (expand_strategy d.infosets d.strategy ch.length sp.length) 0 ch).length
          = ch.length := length_updateChildrenProbs _ _ _ _
      have h0 : d.total_probabilities.sum = 0 := by
        rw [htp, List.sum_replicate]
        simp
      simp only [midFresh, hlen]
      rw [if_pos h0]
      exact ⟨hA, hav, hreg, rfl, hq⟩
    · intro c2 hc2
      rcases mem_updateChildrenProbs _ _ _ _ _ hc2 with ⟨c, hc, k, rfl⟩
      exact ih c hc _ (hch c hc) (hch2 _ hc2)

theorem upward_midFresh : ∀ (n : Node),
    AllDecision midFresh n → AllDecision midFresh n.update_ev := by
  intro n
  induction n using Node.myInd with
  | ht nm sp p =>
    intro _
    rw [update_ev_terminal]
    exact AllDecision.terminal nm sp p
  | ha d ch ih =>
    intro hmid
    rcases allDecision_action_elim hmid with ⟨hp, hch⟩
    rw [update_ev_action]
    apply AllDecision.action
    · obtain ⟨hA, hav, hreg, htp, hpos⟩ := hp
      have hlen : (updateChildrenEv ch).length = ch.length := by
        rw [updateChildrenEv_eq_map]
        simp
      simp only [midFresh, hlen]
      exact ⟨hA, hav, hreg, htp, hpos⟩
    · intro c2 hc2
      rw [updateChildrenEv_eq_map] at hc2
      rcases List.mem_map.mp hc2 with ⟨c, hc, rfl⟩
      exact ih c hc (hch c hc)

theorem strategy_avgHalf : ∀ (n : Node),
    AllDecision midFresh n → AllDecision avgHalf n.update_strategy := by
  intro n
  induction n using Node.myInd with
  | ht nm sp p =>
    intro _
    rw [update_strategy_terminal]
    exact AllDecision.terminal nm sp p
  | ha d ch ih =>
    intro hmid
    rcases allDecision_action_elim hmid with ⟨hp, hch⟩
    rw [update_strategy_action]
    apply AllDecision.action
    · obtain ⟨hA, hav, hreg, htp, hpos⟩ := hp
      have hlen : (updateChildrenStrat ch).length = ch.length := by
        rw [updateChildrenStrat_eq_map]
        simp
      simp only [avgHalf, hlen]
      intro a haA i hi
      have hav1 : d.avg_strategy.length = ch.length := by
        rw [hav]
        simp
      have hav2 : ∀ b < ch.length,
          (d.avg_strategy.getD b []).length = d.infosets.length := by
        intro b hb
        rw [hav, getD_replicate _ _ _ _ hb]
        simp
      have htp1 : d.total_probabilities.length = d.infosets.length := by
        rw [htp]
        simp [piOf, length_infoset_probabilities]
      have hr1 : d.regrets.length = ch.length := by
        rw [hreg]
        simp [zerosMat]
      have hr2 : ∀ b < ch.length,
          (d.regrets.getD b []).length = d.infosets.length := by
        intro b hb
        rw [hreg, zerosMat, getD_replicate _ _ _ _ hb]
        simp
      rw [matGet_newAvg d ch a i haA hi hA hav1 hav2 htp1 hr1 hr2]
      have hu : matGet d.avg_strategy a i = 1 / (ch.length : ℚ) := by
        rw [matGet, hav, getD_replicate _ _ _ _ haA, getD_replicate _ _ _ _ hi]
      have hT : d.total_probabilities.getD i 0 = (piOf d).getD i 0 := by
        rw [htp]
      have hpigt : 0 < (piOf d).getD i 0 := by
        apply hpos
        exact getD_mem _ i 0 (by
          simp [piOf, length_infoset_probabilities]; exact hi)
      rw [hu, hT]
      have hsum : (piOf d).getD i 0 + (piOf d).getD i 0 ≠ 0 :=
        ne_of_gt (by linarith)
      rw [div_eq_div_iff hsum (by norm_num : (2:ℚ) ≠ 0)]
      ring
    · intro c2 hc2
      rw [updateChildrenStrat_eq_map] at hc2
      rcases List.mem_map.mp hc2 with ⟨c, hc, rfl⟩
      exact ih c hc (hch c hc)

end Fresh

section Expand

theorem getD_set_self {α : Type} (l : List α) (j : ℕ) (v d : α)
    (h : j < l.length) : (l.set j v).getD j d = v := by
  induction l generalizing j with
  | nil => simp at h
  | cons x xs ih =>
    cases j with
    | zero => simp
    | succ k => simpa using ih k (by simpa using h)

theorem getD_set_ne {α : Type} (l : List α) (j s : ℕ) (v d : α)
    (h : j ≠ s) : (l.set j v).getD s d = l.getD s d := by
  induction l generalizing j s with
  | nil => simp
  | cons x xs ih =>
    cases j with
    | zero =>
      cases s with
      | zero => omega
      | succ k => simp
    | succ k =>
      cases s with
      | zero => simp
      | succ k2 => simpa using ih k k2 (by omega)

theorem length_assignCol (m : Mat) (j : ℕ) (col : Vec) :
    (assignCol m j col).length = min m.length col.length := by
  simp [assignCol]

theorem row_assignCol (m : Mat) (j : ℕ) (col : Vec) (a : ℕ)
    (h1 : a < m.length) (h2 : a < col.length) :
    (assignCol m j col).getD a [] = (m.getD a []).set j (col.getD a 0) := by
  unfold assignCol
  rw [getD_zipWith' _ _ _ a [] 0 [] h1 h2]

theorem assignCol_shape (m : Mat) (j : ℕ) (col : Vec) (nc ns : ℕ)
    (hm : m.length = nc) (hc : col.length = nc)
    (hr : ∀ a < nc, (m.getD a []).length = ns) :
    (assignCol m j col).length = nc ∧
      ∀ a < nc, ((assignCol m j col).getD a []).length = ns := by
  constructor
  · rw [length_assignCol, hm, hc]
    omega
  · intro a ha
    rw [row_assignCol _ _ _ _ (by omega) (by omega)]
    rw [List.length_set]
    exact hr a ha

theorem innerFold_shape (col : Vec) (nc ns : ℕ) (hc : col.length = nc) :
    ∀ (iset : List ℕ) (m : Mat), m.length = nc →
      (∀ a < nc, (m.getD a []).length = ns) →
      (iset.foldl (fun acc2 t => assignCol acc2 t col) m).length = nc ∧
        ∀ a < nc, ((iset.foldl (fun acc2 t => assignCol acc2 t col) m).getD a []).length = ns := by
  intro iset
  induction iset with
  | nil => intro m hm hr; exact ⟨hm, hr⟩
  | cons t ts ih =>
    intro m hm hr
    rw [List.foldl_cons]
    have hsh := assignCol_shape m t col nc ns hm hc hr
    exact ih _ hsh.1 hsh.2

theorem innerFold_preserve (col : Vec) (nc ns a s : ℕ)
    (hc : col.length = nc) (ha : a < nc) :
    ∀ (iset : List ℕ) (m : Mat), m.length = nc →
      (∀ b < nc, (m.getD b []).length = ns) →
      s ∉ iset →
      matGet (iset.foldl (fun acc2 t => assignCol acc2 t col) m) a s = matGet m a s := by
  intro iset
  induction iset with
  | nil => intro m _ _ _; rfl
  | cons t ts ih =>
    intro m hm hr hs
    rw [List.foldl_cons]
    have hsh := assignCol_shape m t col nc ns hm hc hr
    rw [ih _ hsh.1 hsh.2 (fun h => hs (List.mem_cons_of_mem t h))]
    unfold matGet
    rw [row_assignCol _ _ _ _ (by omega) (by omega)]
    exact getD_set_ne _ _ _ _ _ (fun h => hs (h ▸ List.mem_cons_self t ts))

theorem innerFold_write (col : Vec) (nc ns a s : ℕ)
    (hc : col.length = nc) (ha : a < nc) (hsn : s < ns) :
    ∀ (iset : List ℕ) (m : Mat), m.length = nc →
      (∀ b < nc, (m.getD b []).length = ns) →
      s ∈ iset →
      matGet (iset.foldl (fun acc2 t => assignCol acc2 t col) m) a s = col.getD a 0 := by
  intro iset
  induction iset with
  | nil => intro m _ _ hs; simp at hs
  | cons t ts ih =>
    intro m hm hr hs
    rw [List.foldl_cons]
    have hsh := assignCol_shape m t col nc ns hm hc hr
    by_cases hrest : s ∈ ts
    · exact ih _ hsh.1 hsh.2 hrest
    · have hts : t = s := by
        rcases List.mem_cons.mp hs with h | h
        · omega
        · exact absurd h hrest
      rw [innerFold_preserve col nc ns a s hc ha ts _ hsh.1 hsh.2 hrest]
      unfold matGet
      rw [row_assignCol _ _ _ _ (by omega) (by omega), hts]
      exact getD_set_self _ _ _ _ (by rw [hr a ha]; exact hsn)

theorem mem_enumFrom_snd {α : Type} :
    ∀ (l : List α) (n : ℕ) (p : ℕ × α), p ∈ l.enumFrom n → p.2 ∈ l := by
  intro l
  induction l with
  | nil => intro n p h; simp at h
  | cons x xs ih =>
    intro n p h
    rcases List.mem_cons.mp h with h1 | h2
    · subst h1
      exact List.mem_cons_self x xs
    · exact List.mem_cons_of_mem x (ih (n + 1) p h2)

theorem exists_getD_of_mem {α : Type} (x d : α) :
    ∀ (l : List α), x ∈ l → ∃ j < l.length, l.getD j d = x := by
  intro l
  induction l with
  | nil => intro h; simp at h
  | cons y ys ih =>
    intro h
    rcases List.mem_cons.mp h with h1 | h2
    · exact ⟨0, by simp, by simp [h1.symm]⟩
    · rcases ih h2 with ⟨j, hj, hjx⟩
      exact ⟨j + 1, by simpa using hj, by simpa using hjx⟩

theorem outerFold_preserve (strategy : Mat) (nc ns a s : ℕ)
    (hst : strategy.length = nc) (ha : a < nc) :
    ∀ (L : List (ℕ × List ℕ)) (m : Mat), m.length = nc →
      (∀ b < nc, (m.getD b []).length = ns) →
      (∀ p ∈ L, s ∉ p.2) →
      matGet (L.foldl (fun acc p =>
        p.2.foldl (fun acc2 t => assignCol acc2 t (getCol strategy p.1)) acc) m) a s
        = matGet m a s := by
  intro L
  induction L with
  | nil => intro m _ _ _; rfl
  | cons q Lr ih =>
    intro m hm hr hnone
    rw [List.foldl_cons]
    have hgc : (getCol strategy q.1).length = nc := by
      rw [length_getCol, hst]
    have hsh := innerFold_shape (getCol strategy q.1) nc ns hgc q.2 m hm hr
    rw [ih _ hsh.1 hsh.2 (fun p hp => hnone p (List.mem_cons_of_mem q hp))]
    exact innerFold_preserve _ nc ns a s hgc ha q.2 m hm hr
      (hnone q (List.mem_cons_self q Lr))

theorem expand_general (strategy : Mat) (nc ns a s : ℕ)
    (hst : strategy.length = nc) (ha : a < nc) (hsn : s < ns) :
    ∀ (isets : List (List ℕ)) (k : ℕ) (m : Mat), m.length = nc →
      (∀ b < nc, (m.getD b []).length = ns) →
      ∀ i, i < isets.length → s ∈ isets.getD i [] →
      (∀ j, i < j → j < isets.length → s ∉ isets.getD j []) →
      matGet ((isets.enumFrom k).foldl (fun acc p =>
         p.2.foldl (fun acc2 t => assignCol acc2 t (getCol strategy p.1)) acc) m) a s
        = matGet strategy a (k + i) := by
  intro isets
  induction isets with
  | nil => intro k m _ _ i hi; simp at hi
  | cons iset0 rest ih =>
    intro k m hm hr i hi hmem hlater
    rw [List.enumFrom_cons, List.foldl_cons]
    have hgc : (getCol strategy k).length = nc := by
      rw [length_getCol, hst]
    have hsh := innerFold_shape (getCol strategy k) nc ns hgc iset0 m hm hr
    cases i with
    | zero =>
      have hnone : ∀ p ∈ rest.enumFrom (k + 1), s ∉ p.2 := by
        intro p hp hps
        have hp2 : p.2 ∈ rest := mem_enumFrom_snd rest (k + 1) p hp
        rcases exists_getD_of_mem p.2 [] rest hp2 with ⟨j, hj, hjx⟩
        exact hlater (j + 1) (by omega) (by simpa using hj)
          (by rw [List.getD_cons_succ, hjx]; exact hps)
      rw [outerFold_preserve strategy nc ns a s hst ha _ _ hsh.1 hsh.2 hnone]
      rw [innerFold_write (getCol strategy k) nc ns a s hgc ha hsn iset0 m hm hr
        (by simpa using hmem)]
      unfold getCol matGet
      rw [getD_map _ _ a [] 0 (by omega)]
      norm_num
    | succ i2 =>
      have hres := ih (k + 1) _ hsh.1 hsh.2 i2 (by simpa using hi)
        (by simpa using hmem)
        (fun j hj1 hj2 => by
          have := hlater (j + 1) (by omega) (by simpa using hj2)
          simpa using this)
      rw [hres]
      have harith : k + 1 + i2 = k + (i2 + 1) := by omega
      rw [harith]

theorem matGet_expand_strategy (infosets : List (List ℕ)) (strategy : Mat)
    (nc ns a s i : ℕ)
    (hst : strategy.length = nc) (ha : a < nc) (hsn : s < ns)
    (hi : i < infosets.length) (hmem : s ∈ infosets.getD i [])
    (hlater : ∀ j, i < j → j < infosets.length → s ∉ infosets.getD j []) :
    matGet (expand_strategy infosets strategy nc ns) a s = matGet strategy a i := by
  unfold expand_strategy
  have hz1 : (zerosMat nc ns).length = nc := by simp [zerosMat]
  have hz2 : ∀ b < nc, ((zerosMat nc ns).getD b []).length = ns := by
    intro b hb
    rw [zerosMat, getD_replicate _ _ _ _ hb]
    simp
  have hgen := expand_general strategy nc ns a s hst ha hsn infosets 0
    (zerosMat nc ns) hz1 hz2 i hi hmem hlater
  have he : infosets.enum = infosets.enumFrom 0 := rfl
  rw [he, hgen]
  norm_num

end Expand

section EvLemmas

theorem sp_update_ev (n : Node) :
    n.update_ev.state_probabilities = n.state_probabilities := by
  cases n with
  | terminal nm sp p => rw [update_ev_terminal]
  | action d ch =>
    rw [update_ev_action]
    rfl

theorem length_foldl_vAdd {α : Type} (g : α → Vec) :
    ∀ (l : List α) (acc : Vec), (∀ c ∈ l, acc.length ≤ (g c).length) →
      (l.foldl (fun f c => vAdd f (g c)) acc).length = acc.length := by
  intro l
  induction l with
  | nil => intro acc _; rfl
  | cons c cs ih =>
    intro acc h
    rw [List.foldl_cons]
    have hlen : (vAdd acc (g c)).length = acc.length := by
      rw [vAdd, List.length_zipWith]
      have := h c (List.mem_cons_self c cs)
      omega
    rw [ih _ (by rw [hlen]; exact fun c2 hc2 => h c2 (List.mem_cons_of_mem c hc2)), hlen]

theorem getD_foldl_vAdd {α : Type} (g : α → Vec) :
    ∀ (l : List α) (acc : Vec) (s : ℕ), s < acc.length →
      (∀ c ∈ l, acc.length ≤ (g c).length) →
      (l.foldl (fun f c => vAdd f (g c)) acc).getD s 0
        = acc.getD s 0 + (l.map (fun c => (g c).getD s 0)).sum := by
  intro l
  induction l with
  | nil => intro acc s _ _; simp
  | cons c cs ih =>
    intro acc s hs h
    rw [List.foldl_cons]
    have hlen : (vAdd acc (g c)).length = acc.length := by
      rw [vAdd, List.length_zipWith]
      have := h c (List.mem_cons_self c cs)
      omega
    rw [ih _ s (by omega) (by rw [hlen]; exact fun c2 hc2 => h c2 (List.mem_cons_of_mem c hc2))]
    rw [vAdd, getD_zipWith' _ _ _ s 0 0 0 hs (by
      have := h c (List.mem_cons_self c cs)
      omega)]
    simp
    ring

theorem update_ev_entry (d : AData) (ch : List Node) (s : ℕ)
    (hs : s < d.state_probabilities.length)
    (hlen : ∀ c ∈ updateChildrenEv ch,
      d.state_probabilities.length ≤ c.payouts.length ∧
      d.state_probabilities.length ≤ c.state_probabilities.length) :
    (Node.update_ev (.action d ch)).evsOf.getD s 0 =
      ((updateChildrenEv ch).map
        (fun c => c.payouts.getD s 0 * c.state_probabilities.getD s 0)).sum
      / (if d.state_probabilities.getD s 0 = 0 then 1
         else d.state_probabilities.getD s 0) := by
  rw [update_ev_action]
  simp only [Node.evsOf]
  have hgle : ∀ c ∈ updateChildrenEv ch,
      (List.replicate d.state_probabilities.length (0:ℚ)).length ≤
        (vMul c.payouts c.state_probabilities).length := by
    intro c hc
    rw [List.length_replicate, vMul, List.length_zipWith]
    have := hlen c hc
    omega
  rw [getD_zipWith' _ _ _ s 0 0 0
    (by
      rw [length_foldl_vAdd _ _ _ hgle, List.length_replicate]
      exact hs)
    (by rw [List.length_map]; exact hs)]
  rw [getD_foldl_vAdd _ _ _ s (by rw [List.length_replicate]; exact hs) hgle]
  rw [getD_replicate _ _ _ _ hs]
  rw [List.map_congr_left (fun c hc => by
    have hc2 := hlen c hc
    exact getD_zipWith' (· * ·) c.payouts c.state_probabilities s 0 0 0
      (by omega) (by omega))]
  rw [getD_map _ _ s 0 0 hs]
  unfold safeDenom
  ring_nf

end EvLemmas

section Claims

/-- C1: for a decision node with iteration counter `t = iter_count`,
`update_strategy` replaces the cumulative regrets entrywise by
`(regrets[a,i] + (action_evs[a,i] − infoset_ev(evs,π)[i]) · sign · π_I[i]) · t/(t+1)`,
where `π_I` is computed from the node's current `state_probabilities`:
the cumulative regret is a running mean of reach-weighted per-iteration
regrets, not a plain sum. -/
theorem claim1_regret_update (d : AData) (ch : List Node) (a i : ℕ)
    (ha : a < ch.length) (hi : i < d.infosets.length)
    (h1 : d.regrets.length = ch.length)
    (h2 : ∀ b < ch.length, (d.regrets.getD b []).length = d.infosets.length) :
    matGet ((Node.update_strategy (.action d ch)).regretsOf) a i =
      (matGet d.regrets a i
        + (matGet (action_evs d.infosets ch) a i
            - (infoset_evs d.infosets d.evs d.state_probabilities).getD i 0)
          * (d.sign : ℚ)
          * (infoset_probabilities d.infosets d.state_probabilities).getD i 0)
      * (d.iter_count : ℚ) / ((d.iter_count : ℚ) + 1) := by
  rw [update_strategy_action]
  simp only [Node.regretsOf]
  rw [matGet_newRegrets d ch a i ha hi h1 h2, matGet_current_regret d ch a i ha hi]
  unfold piOf
  ring

/-- C2: the regret-matching step of `update_strategy` maps each column of
the just-updated regrets to a strategy column: if the clipped column
`r⁺ = max(regrets[·,i],0)` sums to zero (in particular whenever every
regret in the column is non-positive) the column becomes uniform `1/A`,
otherwise it becomes `(r⁺ + ε)/Σ(r⁺ + ε)` with `ε = 1e−8`. -/
theorem claim2_regret_matching (d : AData) (ch : List Node) (i : ℕ)
    (hA : 0 < ch.length) (hi : i < d.infosets.length)
    (h1 : d.regrets.length = ch.length)
    (h2 : ∀ b < ch.length, (d.regrets.getD b []).length = d.infosets.length) :
    ((∀ y ∈ getCol ((Node.update_strategy (.action d ch)).regretsOf) i, y ≤ 0) →
      ((getCol ((Node.update_strategy (.action d ch)).regretsOf) i).map
        (fun y => if y < 0 then 0 else y)).sum = 0)
    ∧ (((getCol ((Node.update_strategy (.action d ch)).regretsOf) i).map
        (fun y => if y < 0 then 0 else y)).sum = 0 →
      getCol ((Node.update_strategy (.action d ch)).strategyOf) i =
        List.replicate ch.length (1 / (ch.length : ℚ)))
    ∧ (((getCol ((Node.update_strategy (.action d ch)).regretsOf) i).map
        (fun y => if y < 0 then 0 else y)).sum ≠ 0 →
      getCol ((Node.update_strategy (.action d ch)).strategyOf) i =
        ((getCol ((Node.update_strategy (.action d ch)).regretsOf) i).map
          (fun y => if y < 0 then 0 else y)).map
          (fun r => (r + epsilon) /
            ((((getCol ((Node.update_strategy (.action d ch)).regretsOf) i).map
              (fun y => if y < 0 then 0 else y)).map (fun y => y + epsilon)).sum))) := by
  rw [update_strategy_action]
  simp only [Node.regretsOf, Node.strategyOf]
  have hS := getCol_newStrategy d ch i hi hA h1 h2
  have hRlen : (getCol (newRegrets d ch) i).length = ch.length := by
    rw [length_getCol, (shape_newRegrets d ch h1 h2).1]
  refine ⟨?_, ?_, ?_⟩
  · intro hall
    apply List.sum_eq_zero
    intro x hx
    rcases List.mem_map.mp hx with ⟨y, hy, rfl⟩
    by_cases hneg : y < 0
    · rw [if_pos hneg]
    · rw [if_neg hneg]
      exact le_antisymm (hall y hy) (by linarith)
  · intro h0
    rw [hS]
    unfold regretMatchCol
    rw [if_pos h0, List.length_map, hRlen]
  · intro hne
    rw [hS]
    unfold regretMatchCol
    rw [if_neg hne, List.map_map]
    rfl

/-- C3: `update_probabilities` at a decision node sets child `a`'s state
probabilities to `π ⊙ expanded[a,·]` and recurses into that child, where
the expanded matrix satisfies `expanded[a,s] = strategy[a,i]` for every
state `s` of information set `i` (the partition placing `s` in no later
set), and terminal nodes end the recursion. -/
theorem claim3_downward (d : AData) (ch : List Node) (a : ℕ)
    (ha : a < ch.length) (hst : d.strategy.length = ch.length) :
    ((Node.update_probabilities (.action d ch)).childrenOf.getD a dfltN =
      ((ch.getD a dfltN).set_state_probabilities
        (vMul d.state_probabilities
          ((expand_strategy d.infosets d.strategy ch.length
            d.state_probabilities.length).getD a []))).update_probabilities)
    ∧ (∀ i s, i < d.infosets.length → s ∈ d.infosets.getD i [] →
        s < d.state_probabilities.length →
        (∀ j, i < j → j < d.infosets.length → s ∉ d.infosets.getD j []) →
        matGet (expand_strategy d.infosets d.strategy ch.length
          d.state_probabilities.length) a s = matGet d.strategy a i)
    ∧ (∀ nm sp p, Node.update_probabilities (.terminal nm sp p) =
        Node.terminal nm sp p) := by
  refine ⟨?_, ?_, ?_⟩
  · rw [update_probabilities_action, updateWithSp_action]
    simp only [Node.childrenOf]
    rw [getD_updateChildrenProbs _ _ ch 0 a ha]
    rw [setSp_then_update]
    norm_num
  · intro i s hi hmem hsn hlater
    exact matGet_expand_strategy d.infosets d.strategy ch.length
      d.state_probabilities.length a s i hst ha hsn hi hmem hlater
  · intro nm sp p
    exact update_probabilities_terminal nm sp p

/-- C4: `update_ev` recurses into every child first and then sets, for
every state `s`, `evs[s]` to the sum over the (recursively updated)
children of `payouts()[s] · state_probabilities()[s]`, divided by `π[s]`
when non-zero and by 1 otherwise; `payouts()` of a decision child is its
`evs`, of a terminal child its fixed payouts, and `update_ev` is a no-op
on terminals. -/
theorem claim4_upward (d : AData) (ch : List Node) (s : ℕ)
    (hs : s < d.state_probabilities.length)
    (hlen : ∀ c ∈ updateChildrenEv ch,
      d.state_probabilities.length ≤ c.payouts.length ∧
      d.state_probabilities.length ≤ c.state_probabilities.length) :
    ((Node.update_ev (.action d ch)).evsOf.getD s 0 =
      ((updateChildrenEv ch).map
        (fun c => c.payouts.getD s 0 * c.state_probabilities.getD s 0)).sum
      / (if d.state_probabilities.getD s 0 = 0 then 1
         else d.state_probabilities.getD s 0))
    ∧ (Node.update_ev (.action d ch)).childrenOf = ch.map Node.update_ev
    ∧ (∀ d2 ch2, (Node.action d2 ch2).payouts = d2.evs)
    ∧ (∀ nm sp p, (Node.terminal nm sp p).payouts = p)
    ∧ (∀ nm sp p, Node.update_ev (.terminal nm sp p) = Node.terminal nm sp p) := by
  refine ⟨update_ev_entry d ch s hs hlen, ?_, fun d2 ch2 => rfl,
    fun nm sp p => rfl, fun nm sp p => update_ev_terminal nm sp p⟩
  rw [update_ev_action]
  simp only [Node.childrenOf]
  exact updateChildrenEv_eq_map ch

end Claims

section ClaimsTwo

/-- C5 (amended): if every decision node satisfies the data-model
invariants and — this is the amendment the zero-reach counterexample
forces — every information set of every decision node has strictly
positive reach after the downward pass, then after a complete CFR
iteration every column of `strategy` and of `avg_strategy` at every
decision node is a probability distribution (non-negative, summing to 1
exactly in rational arithmetic, hence within the stated tolerance). -/
theorem claim5_dists (n : Node) (hpre : AllDecision preInv n)
    (hpos : AllDecision posReach n.update_probabilities) :
    AllDecision distInv (fullIteration n) := by
  unfold fullIteration
  exact strategy_distInv _ (upward_midInv _
    (downward_midInv n n.state_probabilities hpre hpos))

/-- C5 counterexample: the tree `z5` satisfies the data-model invariants
(`preInv`), yet after one complete CFR iteration the only column of
`avg_strategy` sums to 0 — the zero-reach information set makes the
average-strategy update divide by zero (`NaN` in the floating-point
code), so the column is not within `10⁻⁶` of summing to 1. -/
theorem claim5_counterexample :
    preInv z5d z5ch ∧
    (getCol ((fullIteration z5).avgStrategyOf) 0).sum = 0 := by
  constructor
  · simp only [preInv, colDist, nonnegV, getCol, z5d, z5ch]
    refine ⟨by decide, by decide, by decide, by decide, by decide, by decide,
      by decide, by decide, by norm_num [List.forall_mem_cons], ?_, ?_⟩ <;>
    · intro i hi
      have hz : i = 0 := by
        simp only [List.length_cons, List.length_nil] at hi
        omega
      subst hz
      norm_num [List.forall_mem_cons, List.getD]
  · simp [fullIteration, z5, z5d, z5ch, Node.update_probabilities,
      Node.updateWithSp, Node.state_probabilities, updateChildrenProbs,
      Node.update_ev, updateChildrenEv, Node.update_strategy,
      updateChildrenStrat, infoset_probabilities, infoset_evs,
      expand_strategy, zerosMat, assignCol, getCol, vMul, vAdd, mAdd, mScale,
      rowMul, rowSub, rowDiv, safeDenom, current_regret, action_evs,
      Node.payouts, regret_match, regretMatchCol, ncols, matGet,
      Node.avgStrategyOf, epsilon, List.enum, List.enumFrom, Function.comp_def]

/-- C5 witness: the invariant-satisfying, full-reach tree `w6` reaches a
post-iteration state where both strategy matrices have distribution
columns at every decision node. -/
theorem claim5_dists_witness : AllDecision distInv (fullIteration w6) := by
  apply claim5_dists
  · refine AllDecision.action _ _ ?_ ?_
    · simp only [preInv, colDist, nonnegV, getCol, w6d, w6ch]
      refine ⟨by decide, by decide, by decide, by decide, by decide, by decide,
        by decide, by decide, by norm_num [List.forall_mem_cons], ?_, ?_⟩ <;>
      · intro i hi
        have hz : i = 0 := by
          simp only [List.length_cons, List.length_nil] at hi
          omega
        subst hz
        norm_num [List.forall_mem_cons, List.getD]
    · intro c hc
      simp only [w6ch, List.mem_cons, List.not_mem_nil, or_false] at hc
      rcases hc with rfl | rfl <;> exact AllDecision.terminal _ _ _
  · have heval : w6.update_probabilities = Node.action
        { w6d with total_probabilities := [1] }
        [.terminal "a" [1/2] [1], .terminal "b" [1/2] [0]] := by
      simp [w6, w6d, w6ch, Node.update_probabilities, Node.updateWithSp,
        Node.state_probabilities, updateChildrenProbs, infoset_probabilities,
        expand_strategy, zerosMat, assignCol, getCol, vMul, List.enum,
        List.enumFrom]
    rw [heval]
    refine AllDecision.action _ _ ?_ ?_
    · simp only [posReach, posV, piOf, infoset_probabilities, w6d]
      norm_num [List.forall_mem_cons, List.getD]
    · intro c hc
      simp only [List.mem_cons, List.not_mem_nil, or_false] at hc
      rcases hc with rfl | rfl <;> exact AllDecision.terminal _ _ _

/-- C6 (amended): on a tree whose decision nodes are freshly constructed
(uniform `strategy` and `avg_strategy`, zero `regrets` and
`total_probabilities`, `iter_count = 1`) and whose information sets all
have strictly positive reach after the downward pass, one full CFR
iteration leaves `avg_strategy = (uniform + strategy)/2` entrywise at
every decision node — the average of the initial uniform strategy and
the new strategy, which equals `strategy` only where the new strategy is
itself uniform, not in general. -/
theorem claim6_avgHalf (n : Node) (hfresh : AllDecision freshInv n)
    (hpos : AllDecision posReach n.update_probabilities) :
    AllDecision avgHalf (fullIteration n) := by
  unfold fullIteration
  exact strategy_avgHalf _ (upward_midFresh _
    (downward_midFresh n n.state_probabilities hfresh hpos))

/-- C6 counterexample: the freshly constructed two-action tree `w6` (its
root has positive reach, so no degenerate division is involved) ends its
very first iteration with `strategy ≠ avg_strategy` at the root: the new
strategy concentrates on the better action while the average strategy
mixes it with the initial uniform strategy. -/
theorem claim6_counterexample :
    freshInv w6d w6ch ∧
    matGet (fullIteration w6).strategyOf 0 0 ≠
      matGet (fullIteration w6).avgStrategyOf 0 0 := by
  constructor
  · simp only [freshInv, zerosMat, w6d, w6ch]
    refine ⟨by decide, ?_, ?_, by decide, by decide, by decide⟩ <;>
      norm_num [List.replicate]
  · simp [fullIteration, w6, w6d, w6ch, Node.update_probabilities,
      Node.updateWithSp, Node.state_probabilities, updateChildrenProbs,
      Node.update_ev, updateChildrenEv, Node.update_strategy,
      updateChildrenStrat, infoset_probabilities, infoset_evs,
      expand_strategy, zerosMat, assignCol, getCol, vMul, vAdd, mAdd, mScale,
      rowMul, rowSub, rowDiv, safeDenom, current_regret, action_evs,
      Node.payouts, regret_match, regretMatchCol, ncols, matGet,
      Node.strategyOf, Node.avgStrategyOf, epsilon, List.enum, List.enumFrom,
      Function.comp_def]
    norm_num

/-- C6 witness: the fresh full-reach tree `w6` after one iteration
satisfies the half-mixing relation at every decision node. -/
theorem claim6_avgHalf_witness : AllDecision avgHalf (fullIteration w6) := by
  apply claim6_avgHalf
  · refine AllDecision.action _ _ ?_ ?_
    · simp only [freshInv, zerosMat, w6d, w6ch]
      refine ⟨by decide, ?_, ?_, by decide, by decide, by decide⟩ <;>
        norm_num [List.replicate]
    · intro c hc
      simp only [w6ch, List.mem_cons, List.not_mem_nil, or_false] at hc
      rcases hc with rfl | rfl <;> exact AllDecision.terminal _ _ _
  · have heval : w6.update_probabilities = Node.action
        { w6d with total_probabilities := [1] }
        [.terminal "a" [1/2] [1], .terminal "b" [1/2] [0]] := by
      simp [w6, w6d, w6ch, Node.update_probabilities, Node.updateWithSp,
        Node.state_probabilities, updateChildrenProbs, infoset_probabilities,
        expand_strategy, zerosMat, assignCol, getCol, vMul, List.enum,
        List.enumFrom]
    rw [heval]
    refine AllDecision.action _ _ ?_ ?_
    · simp only [posReach, posV, piOf, infoset_probabilities, w6d]
      norm_num [List.forall_mem_cons, List.getD]
    · intro c hc
      simp only [List.mem_cons, List.not_mem_nil, or_false] at hc
      rcases hc with rfl | rfl <;> exact AllDecision.terminal _ _ _

theorem posV_vAdd (t p : Vec) (ht : nonnegV t) (hp : posV p) :
    posV (vAdd t p) := by
  intro x hx
  rcases exists_getD_of_mem x 0 _ hx with ⟨j, hj, hjx⟩
  rw [vAdd, List.length_zipWith] at hj
  rw [← hjx, vAdd, getD_zipWith' _ _ _ j 0 0 0 (by omega) (by omega)]
  have h1 := ht _ (getD_mem t j 0 (by omega))
  have h2 := hp _ (getD_mem p j 0 (by omega))
  linarith

/-- C7 (amended): for a decision node with nonnegative
`total_probabilities` and — the amendment the zero-reach counterexample
forces — strictly positive infoset reaches, after the downward pass the
elementwise denominator `total_probabilities + π_I` of the
average-strategy update is strictly positive in every component, whether
or not this pass was the first to visit the node. -/
theorem claim7_denominator (d : AData) (ch : List Node)
    (htot : nonnegV d.total_probabilities) (hpos : posV (piOf d)) :
    posV (vAdd ((Node.update_probabilities (.action d ch)).totalOf) (piOf d)) := by
  rw [update_probabilities_action, updateWithSp_action]
  simp only [Node.totalOf]
  by_cases h0 : d.total_probabilities.sum = 0
  · rw [if_pos h0]
    exact posV_vAdd _ _ (fun x hx => le_of_lt (hpos x hx)) hpos
  · rw [if_neg h0]
    exact posV_vAdd _ _ htot hpos

/-- C7 counterexample: the zero-reach node `z5` is visited by a first
downward pass (its `total_probabilities` sums to zero, so the pass
initializes it with `π_I`), yet the resulting average-strategy
denominator `total_probabilities + π_I` has a zero component — it is not
strictly positive, and the subsequent division produces `NaN` in the
floating-point code. -/
theorem claim7_counterexample :
    z5d.total_probabilities.sum = 0 ∧
    ¬ posV (vAdd ((Node.update_probabilities z5).totalOf) (piOf z5d)) := by
  constructor
  · norm_num [z5d]
  · simp only [posV, piOf, infoset_probabilities, z5d]
    simp [z5, z5d, z5ch, Node.update_probabilities, Node.updateWithSp,
      Node.state_probabilities, updateChildrenProbs, infoset_probabilities,
      expand_strategy, zerosMat, assignCol, getCol, vMul, vAdd, Node.totalOf,
      List.enum, List.enumFrom]

/-- C7 witness: the full-reach node `w6` after its first downward pass has
a strictly positive average-strategy denominator. -/
theorem claim7_denominator_witness :
    posV (vAdd ((Node.update_probabilities (.action w6d w6ch)).totalOf) (piOf w6d)) := by
  apply claim7_denominator
  · simp only [nonnegV, w6d]
    norm_num [List.forall_mem_cons]
  · simp only [posV, piOf, infoset_probabilities, w6d]
    norm_num [List.forall_mem_cons, List.getD]

end ClaimsTwo

section ClaimsThree

/-- C8: at a state `s` with zero reach, provided every child also carries
zero probability at `s` (as the preceding downward pass arranges),
`update_ev` produces `evs[s] = 0`: the numerator vanishes and the divisor
is taken to be 1 instead of 0, so no 0/0 (`NaN`) arises. -/
theorem claim8_zero_reach (d : AData) (ch : List Node) (s : ℕ)
    (hs : s < d.state_probabilities.length)
    (hzero : d.state_probabilities.getD s 0 = 0)
    (hch : ∀ c ∈ ch, c.state_probabilities.getD s 0 = 0)
    (hlen : ∀ c ∈ updateChildrenEv ch,
      d.state_probabilities.length ≤ c.payouts.length ∧
      d.state_probabilities.length ≤ c.state_probabilities.length) :
    (Node.update_ev (.action d ch)).evsOf.getD s 0 = 0 ∧
    (if d.state_probabilities.getD s 0 = 0 then (1:ℚ)
     else d.state_probabilities.getD s 0) = 1 := by
  constructor
  · rw [update_ev_entry d ch s hs hlen]
    have hzsum : ((updateChildrenEv ch).map
        (fun c => c.payouts.getD s 0 * c.state_probabilities.getD s 0)).sum = 0 := by
      apply List.sum_eq_zero
      intro x hx
      rcases List.mem_map.mp hx with ⟨c, hc, rfl⟩
      rw [updateChildrenEv_eq_map] at hc
      rcases List.mem_map.mp hc with ⟨c0, hc0, rfl⟩
      rw [sp_update_ev, hch c0 hc0, mul_zero]
    rw [hzsum, zero_div]
  · rw [if_pos hzero]

/-- C8 witness: the zero-reach tree `z5` evaluates its root EV at state 0
to 0 with divisor 1. -/
theorem claim8_zero_reach_witness :
    (Node.update_ev (.action z5d z5ch)).evsOf.getD 0 0 = 0 ∧
    (if z5d.state_probabilities.getD 0 0 = 0 then (1:ℚ)
     else z5d.state_probabilities.getD 0 0) = 1 := by
  apply claim8_zero_reach z5d z5ch 0
  · decide
  · norm_num [z5d]
  · intro c hc
    simp only [z5ch, List.mem_cons, List.not_mem_nil, or_false] at hc
    subst hc
    norm_num [Node.state_probabilities]
  · intro c hc
    rw [updateChildrenEv_eq_map] at hc
    simp only [z5ch, List.map_cons, List.map_nil, update_ev_terminal,
      List.mem_cons, List.not_mem_nil, or_false] at hc
    subst hc
    simp [Node.payouts, Node.state_probabilities, z5d]

/-- C9 (amended): the code performs no construction-time validation —
`ActionNode` and `TerminalNode` are plain public structs built by struct
literals — so structural misuse is not rejected at construction: there
exists a tree with an invalid information-set partition and zero actions
that is accepted as constructed, and on this tree a complete CFR
iteration even runs to completion and returns a decision node.  This
does not extend to every ill-formed tree: misuse such as out-of-range
state indices in an infoset or mismatched dimensions still aborts
mid-pass at runtime in the Rust code; the point is that nothing is
signalled at construction time. -/
theorem claim9_no_validation :
    ∃ (d : AData) (ch : List Node),
      ¬ validPartition d.infosets d.state_probabilities.length ∧
      ch.length = 0 ∧
      ∃ d2 ch2, fullIteration (Node.action d ch) = Node.action d2 ch2 := by
  refine ⟨b9d, [], by decide, rfl,
    { b9d with evs := [0], iter_count := 2 }, [], ?_⟩
  simp [fullIteration, b9d, Node.update_probabilities, Node.updateWithSp,
    Node.state_probabilities, updateChildrenProbs, Node.update_ev,
    updateChildrenEv, Node.update_strategy, updateChildrenStrat,
    infoset_probabilities, infoset_evs, expand_strategy, zerosMat,
    assignCol, getCol, vMul, vAdd, mAdd, mScale, rowMul, rowSub, rowDiv,
    safeDenom, current_regret, action_evs, Node.payouts, regret_match,
    regretMatchCol, ncols, List.enum, List.enumFrom, Function.comp_def]

/-- C9 counterexample: the node data `b9d` has an invalid information-set
partition (no infoset covers state 0) and zero actions, yet its
construction succeeds and one complete CFR iteration runs to completion,
producing a concrete tree — nothing is rejected at construction time. -/
theorem claim9_counterexample :
    ¬ validPartition b9d.infosets b9d.state_probabilities.length ∧
    fullIteration (Node.action b9d []) =
      Node.action { b9d with evs := [0], iter_count := 2 } [] := by
  constructor
  · decide
  · simp [fullIteration, b9d, Node.update_probabilities, Node.updateWithSp,
      Node.state_probabilities, updateChildrenProbs, Node.update_ev,
      updateChildrenEv, Node.update_strategy, updateChildrenStrat,
      infoset_probabilities, infoset_evs, expand_strategy, zerosMat,
      assignCol, getCol, vMul, vAdd, mAdd, mScale, rowMul, rowSub, rowDiv,
      safeDenom, current_regret, action_evs, Node.payouts, regret_match,
      regretMatchCol, ncols, List.enum, List.enumFrom, Function.comp_def]

/-- C10: `set_state_probabilities` accepts any vector (no validation,
even of its length), a subsequent read returns exactly that vector, and
every other field of the node — decision or terminal — is unchanged. -/
theorem claim10_frame :
    (∀ (d : AData) (ch : List Node) (p : Vec),
      (Node.action d ch).set_state_probabilities p =
        Node.action { d with state_probabilities := p } ch)
    ∧ (∀ (nm : String) (sp pay p : Vec),
      (Node.terminal nm sp pay).set_state_probabilities p =
        Node.terminal nm p pay)
    ∧ (∀ (n : Node) (p : Vec),
      (n.set_state_probabilities p).state_probabilities = p) :=
  ⟨fun d ch p => rfl, fun nm sp pay p => rfl, fun n p => by cases n <;> rfl⟩

/-- C1 witness: the regret-update formula instantiated on the concrete
two-action node. -/
theorem claim1_regret_update_witness :
    matGet ((Node.update_strategy (.action w6d w6ch)).regretsOf) 0 0 =
      (matGet w6d.regrets 0 0
        + (matGet (action_evs w6d.infosets w6ch) 0 0
            - (infoset_evs w6d.infosets w6d.evs w6d.state_probabilities).getD 0 0)
          * (w6d.sign : ℚ)
          * (infoset_probabilities w6d.infosets w6d.state_probabilities).getD 0 0)
      * (w6d.iter_count : ℚ) / ((w6d.iter_count : ℚ) + 1) :=
  claim1_regret_update w6d w6ch 0 0 (by decide) (by decide) (by decide) (by decide)

/-- C2 witness: the regret-matching case split instantiated on the
concrete two-action node. -/
theorem claim2_regret_matching_witness :
    ((∀ y ∈ getCol ((Node.update_strategy (.action w6d w6ch)).regretsOf) 0, y ≤ 0) →
      ((getCol ((Node.update_strategy (.action w6d w6ch)).regretsOf) 0).map
        (fun y => if y < 0 then 0 else y)).sum = 0)
    ∧ (((getCol ((Node.update_strategy (.action w6d w6ch)).regretsOf) 0).map
        (fun y => if y < 0 then 0 else y)).sum = 0 →
      getCol ((Node.update_strategy (.action w6d w6ch)).strategyOf) 0 =
        List.replicate w6ch.length (1 / (w6ch.length : ℚ)))
    ∧ (((getCol ((Node.update_strategy (.action w6d w6ch)).regretsOf) 0).map
        (fun y => if y < 0 then 0 else y)).sum ≠ 0 →
      getCol ((Node.update_strategy (.action w6d w6ch)).strategyOf) 0 =
        ((getCol ((Node.update_strategy (.action w6d w6ch)).regretsOf) 0).map
          (fun y => if y < 0 then 0 else y)).map
          (fun r => (r + epsilon) /
            ((((getCol ((Node.update_strategy (.action w6d w6ch)).regretsOf) 0).map
              (fun y => if y < 0 then 0 else y)).map (fun y => y + epsilon)).sum))) :=
  claim2_regret_matching w6d w6ch 0 (by decide) (by decide) (by decide) (by decide)

/-- C3 witness: the downward-pass characterization instantiated on the
concrete two-action node at action 0. -/
theorem claim3_downward_witness :
    ((Node.update_probabilities (.action w6d w6ch)).childrenOf.getD 0 dfltN =
      ((w6ch.getD 0 dfltN).set_state_probabilities
        (vMul w6d.state_probabilities
          ((expand_strategy w6d.infosets w6d.strategy w6ch.length
            w6d.state_probabilities.length).getD 0 []))).update_probabilities)
    ∧ (∀ i s, i < w6d.infosets.length → s ∈ w6d.infosets.getD i [] →
        s < w6d.state_probabilities.length →
        (∀ j, i < j → j < w6d.infosets.length → s ∉ w6d.infosets.getD j []) →
        matGet (expand_strategy w6d.infosets w6d.strategy w6ch.length
          w6d.state_probabilities.length) 0 s = matGet w6d.strategy 0 i)
    ∧ (∀ nm sp p, Node.update_probabilities (.terminal nm sp p) =
        Node.terminal nm sp p) :=
  claim3_downward w6d w6ch 0 (by decide) (by decide)

/-- C4 witness: the upward-pass characterization instantiated on the
concrete two-action node at state 0. -/
theorem claim4_upward_witness :
    ((Node.update_ev (.action w6d w6ch)).evsOf.getD 0 0 =
      ((updateChildrenEv w6ch).map
        (fun c => c.payouts.getD 0 0 * c.state_probabilities.getD 0 0)).sum
      / (if w6d.state_probabilities.getD 0 0 = 0 then 1
         else w6d.state_probabilities.getD 0 0))
    ∧ (Node.update_ev (.action w6d w6ch)).childrenOf = w6ch.map Node.update_ev
    ∧ (∀ d2 ch2, (Node.action d2 ch2).payouts = d2.evs)
    ∧ (∀ nm sp p, (Node.terminal nm sp p).payouts = p)
    ∧ (∀ nm sp p, Node.update_ev (.terminal nm sp p) = Node.terminal nm sp p) := by
  apply claim4_upward w6d w6ch 0
  · decide
  · intro c hc
    rw [updateChildrenEv_eq_map] at hc
    simp only [w6ch, List.map_cons, List.map_nil, update_ev_terminal,
      List.mem_cons, List.not_mem_nil, or_false] at hc
    rcases hc with rfl | rfl <;>
      simp [Node.payouts, Node.state_probabilities, w6d]

end ClaimsThree

end CFR
